import Mathlib

/-
Verification of the teakit task-graph library (src/task.py, src/utilities.py,
src/logging.py) against its natural-language specification.

Shallow embedding conventions:
- Python ints are Nat (all integers appearing here are non-negative);
  machine-width 32-bit arithmetic inside SHA-256 is Nat with explicit % 2^32.
- A task identifier is the pair (id, context) : Nat × String.  The source
  allows either a bare tuple or an enum member whose `.value` is such a tuple;
  `TaskIdentifier.get_value` unwraps the enum, so identifiers are modelled as
  the underlying tuples directly.
- Python `dict[int, Any]` resource pools are modelled as functions
  Nat → Option V; `h not in d` is `d h = none`.
- Mutation is explicit state passing: `Task.execute` returns the new task
  together with the returned Status, and `TaskGraph.from_tasks` returns the
  final state of the caller's (destructively consumed) task list alongside
  the Result.
- The linked chain of TaskGraph nodes (fields tasks/next/depth, with the root
  at depth 0 and node `next` at depth d+1) is represented as the list of its
  per-depth task lists, index = depth: `Layers V := List (List (Task V))`.
- Loops are encoded as structurally recursive functions on an explicit
  iteration count that is exactly the number of remaining loop iterations,
  so that every definition reduces inside the kernel.
-/

set_option maxRecDepth 100000

namespace Teakit

-- ---------------------------------------------------------------------------
-- logging.py: StatusKind / Status
-- task.py imports `Status, StatusKind`; a Status carries a kind and a message
-- (the kinds are the enum in src/logging.py).
-- ---------------------------------------------------------------------------

inductive StatusKind where
  | SUCCESS
  | INFO
  | WARN
  | FAIL
  | ERROR
  | PENDING
  | CANCEL
deriving DecidableEq

structure Status where
  status : StatusKind
  message : String
deriving DecidableEq

-- ---------------------------------------------------------------------------
-- SHA-256, executable over byte lists (bytes are Nat < 256), words are Nat
-- taken mod 2^32.  Needed because TaskIdentifier.task_hash (src/task.py
-- lines 17-22) hashes identifiers with hashlib.sha256.
-- ---------------------------------------------------------------------------

def w32 : Nat := 4294967296

/-- rotate a 32-bit word right by n (0 < n < 32). -/
def rotr32 (x n : Nat) : Nat :=
  (x / 2 ^ n) + (x % 2 ^ n) * 2 ^ (32 - n)

def shr32 (x n : Nat) : Nat := x / 2 ^ n

def not32 (x : Nat) : Nat := (w32 - 1) - x

def bsig0 (x : Nat) : Nat := (rotr32 x 2) ^^^ (rotr32 x 13) ^^^ (rotr32 x 22)

def bsig1 (x : Nat) : Nat := (rotr32 x 6) ^^^ (rotr32 x 11) ^^^ (rotr32 x 25)

def ssig0 (x : Nat) : Nat := (rotr32 x 7) ^^^ (rotr32 x 18) ^^^ (shr32 x 3)

def ssig1 (x : Nat) : Nat := (rotr32 x 17) ^^^ (rotr32 x 19) ^^^ (shr32 x 10)

def ch32 (e f g : Nat) : Nat := (e &&& f) ^^^ ((not32 e) &&& g)

def maj32 (a b c : Nat) : Nat := (a &&& b) ^^^ (a &&& c) ^^^ (b &&& c)

def sha256K : List Nat :=
  [1116352408, 1899447441, 3049323471, 3921009573, 961987163, 1508970993,
   2453635748, 2870763221, 3624381080, 310598401, 607225278, 1426881987,
   1925078388, 2162078206, 2614888103, 3248222580, 3835390401, 4022224774,
   264347078, 604807628, 770255983, 1249150122, 1555081692, 1996064986,
   2554220882, 2821834349, 2952996808, 3210313671, 3336571891, 3584528711,
   113926993, 338241895, 666307205, 773529912, 1294757372, 1396182291,
   1695183700, 1986661051, 2177026350, 2456956037, 2730485921, 2820302411,
   3259730800, 3345764771, 3516065817, 3600352804, 4094571909, 275423344,
   430227734, 506948616, 659060556, 883997877, 958139571, 1322822218,
   1537002063, 1747873779, 1955562222, 2024104815, 2227730452, 2361852424,
   2428436474, 2756734187, 3204031479, 3329325298]

def sha256H0 : List Nat :=
  [1779033703, 3144134277, 1013904242, 2773480762,
   1359893119, 2600822924, 528734635, 1541459225]

/-- `n.to_bytes(len, "big")`: big-endian, zero-padded to `len` bytes. -/
def toBytesBE (n len : Nat) : List Nat :=
  (List.range len).map (fun i => n / 2 ^ (8 * (len - 1 - i)) % 256)

def bytesToWord (bs : List Nat) : Nat :=
  bs.foldl (fun a b => a * 256 + b) 0

/-- group a byte list into big-endian 32-bit words. -/
def bytesToWords : List Nat → List Nat
  | b0 :: b1 :: b2 :: b3 :: rest => bytesToWord [b0, b1, b2, b3] :: bytesToWords rest
  | _ => []

/-- standard SHA-2 padding: 0x80, zeros, 8-byte big-endian bit length. -/
def padMessage (msg : List Nat) : List Nat :=
  let l := msg.length
  let k := (55 + 64 - l % 64) % 64
  msg ++ [0x80] ++ List.replicate k 0 ++ toBytesBE (8 * l) 8

/-- message-schedule extension step: appends W[t] for the next t ≥ 16. -/
def extendStep (w : List Nat) : List Nat :=
  w ++ [(ssig1 (w.getD (w.length - 2) 0) + w.getD (w.length - 7) 0 +
         ssig0 (w.getD (w.length - 15) 0) + w.getD (w.length - 16) 0) % w32]

def extendW (w : List Nat) : List Nat :=
  (List.range 48).foldl (fun w _ => extendStep w) w

/-- one compression round; state is the 8-word list [a,b,c,d,e,f,g,h]. -/
def roundStep (st : List Nat) (kw : Nat × Nat) : List Nat :=
  match st with
  | [a, b, c, d, e, f, g, h] =>
    let t1 := (h + bsig1 e + ch32 e f g + kw.1 + kw.2) % w32
    let t2 := (bsig0 a + maj32 a b c) % w32
    [(t1 + t2) % w32, a, b, c, (d + t1) % w32, e, f, g]
  | st => st

def compress (hs : List Nat) (block : List Nat) : List Nat :=
  let w := extendW (bytesToWords block)
  let fin := (sha256K.zip w).foldl roundStep hs
  (hs.zip fin).map (fun p => (p.1 + p.2) % w32)

/-- fold the compression function over the given number of 64-byte blocks. -/
def sha256Blocks (hs : List Nat) (l : List Nat) : Nat → List Nat
  | 0 => hs
  | n + 1 => sha256Blocks (compress hs (l.take 64)) (l.drop 64) n

/-- SHA-256 digest of a byte list, read as a big-endian unbounded integer
(`int.from_bytes(hasher.digest(), "big")`). -/
def sha256 (msg : List Nat) : Nat :=
  let p := padMessage msg
  let hs := sha256Blocks sha256H0 p (p.length / 64)
  hs.foldl (fun a h => a * w32 + h) 0

-- ---------------------------------------------------------------------------
-- UTF-8 and int.bit_length, needed by TaskIdentifier.task_hash.
-- ---------------------------------------------------------------------------

/-- UTF-8 encoding of one unicode scalar value (Char excludes surrogates),
exactly the bytes `bytes(ctx, "utf-8")` produces per character. -/
def utf8EncodeChar (c : Nat) : List Nat :=
  if c < 0x80 then [c]
  else if c < 0x800 then [0xC0 + c / 64, 0x80 + c % 64]
  else if c < 0x10000 then [0xE0 + c / 4096, 0x80 + c / 64 % 64, 0x80 + c % 64]
  else [0xF0 + c / 262144, 0x80 + c / 4096 % 64, 0x80 + c / 64 % 64, 0x80 + c % 64]

def utf8Bytes (s : String) : List Nat :=
  s.data.foldl (fun acc c => acc ++ utf8EncodeChar c.toNat) []

/-- Python `int.bit_length()` for non-negative ints, by repeated halving
(structural on a fuel argument that the value itself bounds, so that it
reduces inside the kernel; Nat.log2 is well-founded recursion and does not). -/
def bitLenAux : Nat → Nat → Nat
  | 0, _ => 0
  | fuel + 1, n => if n = 0 then 0 else bitLenAux fuel (n / 2) + 1

def bitLength (n : Nat) : Nat := bitLenAux n n

-- ---------------------------------------------------------------------------
-- task.py lines 16-36: TaskIdentifier static helpers.  An identifier value is
-- the tuple (id, context); `get_value` unwraps enum members to that tuple, so
-- the embedding works with the tuples themselves.
-- ---------------------------------------------------------------------------

/-- The byte string the source feeds to sha256 for the id component:
`identifier[0].to_bytes(identifier[0].bit_length() + 7 // 8, "big")`.
Python operator precedence makes the length `bit_length(id) + (7 // 8)`,
i.e. exactly `bit_length(id)` bytes. -/
def TaskIdentifier.idBytes (id : Nat) : List Nat :=
  toBytesBE id (bitLength id + 7 / 8)

/-- task.py lines 17-22. -/
def TaskIdentifier.task_hash (identifier : Nat × String) : Nat :=
  sha256 (TaskIdentifier.idBytes identifier.1 ++ utf8Bytes identifier.2)

def TaskIdentifier.task_id (identifier : Nat × String) : Nat := identifier.1

def TaskIdentifier.task_context (identifier : Nat × String) : String := identifier.2

/-- Modelled from the spec: the spec (§4.1, §3) prescribes the *minimal*
big-endian byte encoding of `id` (length `(bit_length(id) + 7) // 8`), which
is what `id.to_bytes((id.bit_length() + 7) // 8, "big")` would compute. -/
def TaskIdentifier.idBytesMinimal (id : Nat) : List Nat :=
  toBytesBE id ((bitLength id + 7) / 8)

/-- Modelled from the spec: `hash(id, ctx)` = SHA-256 of
`to_minimal_big_endian(id) ∥ utf8(ctx)` read as a big-endian integer. -/
def TaskIdentifier.task_hash_spec (identifier : Nat × String) : Nat :=
  sha256 (TaskIdentifier.idBytesMinimal identifier.1 ++ utf8Bytes identifier.2)

-- ---------------------------------------------------------------------------
-- resource.py (absent from src/): ForwardResourcesFrom.
-- Modelled from the spec: §3 "OutputFrom" (the source calls it
-- ForwardResourcesFrom) is a marker holding one TaskIdentifier tuple; its
-- presence in args declares a dependency and requests substitution of the
-- producer's output.  An argument is either a plain user value or such a
-- marker (spec §9: "Arg = Literal(value) | Produced(TaskId)").
-- ---------------------------------------------------------------------------

inductive Arg (V : Type) where
  | value (v : V)
  | forwardResourcesFrom (id : Nat × String)
deriving DecidableEq

-- ---------------------------------------------------------------------------
-- task.py lines 49-118: Task.  `action` consumes the resolved positional
-- arguments and returns (output, Status); `outputs` is the write-once slot.
-- V is the type of user values / outputs.
-- ---------------------------------------------------------------------------

structure Task (V : Type) where
  action : List V → Option V × Status
  identifier : Nat × String
  args : List (Arg V) := []
  dependencies : Option (List (Nat × String)) := none
  outputs : Option V := none

/-- task.py lines 89-96 (__post_init__): add the id of every
ForwardResourcesFrom argument to the dependency set, creating it if absent.
The Python set is modelled as a duplicate-free list (add-if-absent). -/
def Task.resolve_dependencies {V : Type} (t : Task V) : Task V :=
  { t with dependencies :=
      (t.args.foldl
        (fun deps a =>
          match a with
          | .forwardResourcesFrom id =>
            match deps with
            | none => some [id]
            | some l => if id ∈ l then some l else some (l ++ [id])
          | .value _ => deps)
        t.dependencies) }

/-- task.py lines 115-118. -/
def Task.id_with_context {V : Type} (t : Task V) : String :=
  toString t.identifier.1 ++
    (if t.identifier.2 = "" then "" else ": " ++ t.identifier.2)

/-- the Err message of resolve_arguments (task.py line 82). -/
def cancelMessage {V : Type} (t : Task V) (id : Nat × String) : String :=
  "cancelled execution of task \"" ++ t.id_with_context ++
  "\" because required inputs were unavailable in resource pool for task \"" ++
  toString (TaskIdentifier.task_id id) ++ ": " ++ TaskIdentifier.task_context id ++ "\""

/-- the for-loop of resolve_arguments (task.py lines 78-85): walk the
argument list, substituting `resources[task_hash(a.id)]` for each
ForwardResourcesFrom and returning Err on the first missing producer. -/
def resolveLoop {V : Type} (t : Task V) (resources : Nat → Option V) :
    List (Arg V) → List V → Except Status (List V)
  | [], resolved => .ok resolved
  | .value v :: rest, resolved => resolveLoop t resources rest (resolved ++ [v])
  | .forwardResourcesFrom id :: rest, resolved =>
    match resources (TaskIdentifier.task_hash id) with
    | none => .error ⟨.FAIL, cancelMessage t id⟩
    | some v => resolveLoop t resources rest (resolved ++ [v])

/-- task.py lines 75-87. -/
def Task.resolve_arguments {V : Type} (t : Task V) (resources : Nat → Option V) :
    Except Status (List V) :=
  resolveLoop t resources t.args []

/-- task.py lines 60-73.  Returns the Status together with the post-state of
the task (the only mutation is the `outputs` slot, written exactly when the
action reports SUCCESS with a non-None output).  The try/except wrapper is
not modelled: all modelled actions are total Lean functions. -/
def Task.execute {V : Type} (t : Task V) (resources : Nat → Option V) :
    Status × Task V :=
  match t.resolve_arguments resources with
  | .ok resolved =>
    let outRes := t.action resolved
    if outRes.2.status = StatusKind.SUCCESS ∧ outRes.1.isSome then
      (outRes.2, { t with outputs := outRes.1 })
    else
      (outRes.2, t)
  | .error e => (e, t)

-- ---------------------------------------------------------------------------
-- utilities.py lines 15-24: partition.
-- ---------------------------------------------------------------------------

/-- the loop `for i, v in enumerate(data): partition_data[i % partitions].append(v)`.
`g` is the group count, `i` the running index. -/
def partitionLoop {V : Type} (g : Nat) : List V → Nat → List (List V) → List (List V)
  | [], _, acc => acc
  | v :: rest, i, acc =>
    partitionLoop g rest (i + 1) (acc.set (i % g) (acc.getD (i % g) [] ++ [v]))

/-- utilities.py lines 15-24.  `max_partitions` is a Python int, so it is
taken as an Int to capture the `< 1` failure (the source raises; the model
returns Except.error with the source's message).
`partitions = max_partitions - max(0, max_partitions - len(data))`
equals `min(max_partitions, len(data))`. -/
def partition {V : Type} (data : List V) (max_partitions : Int) :
    Except String (List (List V)) :=
  if max_partitions < 1 then
    .error ("failed to parition list with partition size of " ++
      toString max_partitions ++ ", partition size must be greater than 0")
  else
    let partitions : Nat := (max_partitions - max 0 (max_partitions - data.length)).toNat
    .ok (partitionLoop partitions data 0 (List.replicate partitions []))

-- ---------------------------------------------------------------------------
-- task.py lines 165-274: TaskGraph.  The chain of nodes is the list of its
-- layers; index = node depth; `total_depth` = length - 1; `tasks_at d` is the
-- task list of the node at depth d (empty past the last node).
-- ---------------------------------------------------------------------------

abbrev Layers (V : Type) : Type := List (List (Task V))

/-- task.py lines 231-238 (as observed from the root node, whose depth is 0). -/
def TaskGraph.tasks_at {V : Type} (g : Layers V) (depth : Nat) : List (Task V) :=
  List.getD g depth []

/-- task.py lines 248-251: the depth of the last node in the chain. -/
def TaskGraph.total_depth {V : Type} (g : Layers V) : Nat :=
  List.length g - 1

/-- task.py lines 240-246: append to the node at `depth` when it exists;
otherwise the last node allocates a single successor node holding [value]
(so a request past the end appends exactly one new layer). -/
def TaskGraph.insert_at {V : Type} (g : Layers V) (value : Task V) (depth : Nat) : Layers V :=
  if depth < List.length g then
    List.set g depth (List.getD g depth [] ++ [value])
  else
    g ++ [[value]]

/-- inner scan of the dependency search (task.py lines 201-204): count the
tasks of one layer whose identifier hash equals the dependency's hash,
updating (found, deepest); `depth` is the layer's depth. -/
def scanLayer {V : Type} (d : Nat × String) (depth : Nat) (layer : List (Task V))
    (acc : Nat × Nat) : Nat × Nat :=
  layer.foldl
    (fun fd t =>
      if TaskIdentifier.task_hash d = TaskIdentifier.task_hash t.identifier then
        (fd.1 + 1, if fd.2 < depth then depth else fd.2)
      else fd)
    acc

/-- the `while depth <= root.total_depth()` walk (task.py lines 199-205) as a
recursion over the remaining layers, `depth` being the depth of the first. -/
def scanDepAux {V : Type} (d : Nat × String) (layers : List (List (Task V)))
    (depth : Nat) (acc : Nat × Nat) : Nat × Nat :=
  match layers with
  | [] => acc
  | layer :: rest => scanDepAux d rest (depth + 1) (scanLayer d depth layer acc)

/-- the `for current_dependency in current_task.dependencies` loop
(task.py lines 196-205): found and deepest start at 0 and are shared
across all dependencies. -/
def scanDeps {V : Type} (g : Layers V) (ds : List (Nat × String)) : Nat × Nat :=
  ds.foldl (fun acc d => scanDepAux d g 0 acc) (0, 0)

/-- one `for i, current_task in enumerate(tasks)` pass (task.py lines
193-213), including CPython's semantics of popping during iteration: after
`tasks.pop(i)` the enumerate cursor moves to index i+1 of the *shortened*
list, so the element that slid into slot i is skipped for this pass.
The iteration count `n` is the number of remaining iterations; the current
index is always `ts.length - n` (initially n = ts.length, index 0; a pop
shortens the list, so it consumes two counts).  Result:
(tasks, graph, reset, some err) stops the pass with the excess-dependencies
error; otherwise the fourth component is none. -/
def forPassAux {V : Type} :
    Nat → List (Task V) → Layers V → Bool →
    List (Task V) × Layers V × Bool × Option Status
  | 0, ts, g, reset => (ts, g, reset, none)
  | n + 1, ts, g, reset =>
    let i := ts.length - (n + 1)
    match List.get? ts i with
    | none => (ts, g, reset, none)
    | some t =>
      match t.dependencies with
      | none => forPassAux n ts g reset
      | some ds =>
        let fd := scanDeps g ds
        if fd.1 = ds.length then
          match n with
          | 0 => (ts.eraseIdx i, TaskGraph.insert_at g t (fd.2 + 1), true, none)
          | m + 1 =>
            forPassAux m (ts.eraseIdx i) (TaskGraph.insert_at g t (fd.2 + 1)) true
        else if fd.1 > ds.length then
          (ts, g, reset, some ⟨.FAIL, "<TaskGraph excess dependencies found>"⟩)
        else
          forPassAux n ts g reset

/-- one pass with `reset = False` (task.py line 193). -/
def forPass {V : Type} (ts : List (Task V)) (g : Layers V) :
    List (Task V) × Layers V × Bool × Option Status :=
  forPassAux ts.length ts g false

/-- the exit of the layering loop (task.py lines 215-220). -/
def buildExit {V : Type} (g : Layers V) (ts : List (Task V)) (passes : Nat) :
    Except Status (Layers V) × List (Task V) :=
  if passes > 1 ∨ 0 < ts.length then
    (.error ⟨.FAIL, "<TaskGraph circular or missing dependency>"⟩, ts)
  else
    (.ok g, ts)

/-- the `while len(tasks) > 0 and passes < 2` loop (task.py lines 191-216).
`fuel` bounds the number of iterations; each iteration either removes at
least one task (and zeroes `passes`) or increments `passes`, so
3 * len(tasks) + 3 iterations always suffice (buildAux_fuel below shows the
result is fuel-independent beyond that bound). -/
def buildAux {V : Type} :
    Nat → List (Task V) → Layers V → Nat →
    Except Status (Layers V) × List (Task V)
  | 0, ts, g, passes => buildExit g ts passes
  | fuel + 1, ts, g, passes =>
    if 0 < ts.length ∧ passes < 2 then
      match forPass ts g with
      | (ts', _, _, some e) => (.error e, ts')
      | (ts', g', reset, none) => buildAux fuel ts' g' (if reset then 0 else passes + 1)
    else buildExit g ts passes

/-- the seeding loop of from_tasks (task.py lines 177-186): scan the list
once, pop every task whose `dependencies is None` and append it to the root
layer.  The source keeps `i`, `offset` and a shrinking `length`; the current
list index is `i - offset` and `length` always equals the current list
length, so the loop state is determined by the number `n` of remaining
iterations with current index `ts.length - n`.  It returns (remaining,
root-layer tasks). -/
def seedAux {V : Type} : Nat → List (Task V) → List (Task V) → List (Task V) × List (Task V)
  | 0, ts, roots => (ts, roots)
  | n + 1, ts, roots =>
    let j := ts.length - (n + 1)
    match List.get? ts j with
    | none => (ts, roots)
    | some t =>
      if t.dependencies = none then
        seedAux n (ts.eraseIdx j) (roots ++ [t])
      else
        seedAux n ts roots

/-- task.py lines 172-220.  The first component is the source's return value
(Ok root graph or Err Status); the second is the final state of the caller's
task list, which the source mutates in place.  The try/except around the
layering loop is not modelled (no modelled operation raises). -/
def TaskGraph.from_tasks {V : Type} (tasks : List (Task V)) :
    Except Status (Layers V) × List (Task V) :=
  let sd := seedAux tasks.length tasks []
  let rest := sd.1
  let root := sd.2
  if root.length = 0 then
    (.error ⟨.FAIL, "<TaskGraph: no root nodes>"⟩, rest)
  else
    buildAux (3 * rest.length + 3) rest [root] 0

-- ---------------------------------------------------------------------------
-- Derived notions used by the claims.
-- ---------------------------------------------------------------------------

/-- pairwise-distinct identifier hashes: the identity comparison the graph
builder uses everywhere is `task_hash(get_value(x)) == task_hash(get_value(y))`
(spec §4.1 treats collisions as impossible and identifiers with equal hashes
as equal). -/
@[reducible] def HashesNodup {V : Type} (ts : List (Task V)) : Prop :=
  (ts.map (fun t => TaskIdentifier.task_hash t.identifier)).Nodup

/-- every declared dependency has a producing task in the list (matching by
identifier hash). -/
@[reducible] def ProducersPresent {V : Type} (ts : List (Task V)) : Prop :=
  ∀ t ∈ ts, ∀ ds, t.dependencies = some ds →
    ∀ d ∈ ds, ∃ u ∈ ts, TaskIdentifier.task_hash u.identifier = TaskIdentifier.task_hash d

/-- the dependency relation admits a rank function on identifier hashes that
strictly decreases along dependencies; for a finite task list with all
producers present this is exactly acyclicity of the dependency DAG. -/
def DagAcyclic {V : Type} (ts : List (Task V)) : Prop :=
  ∃ rank : Nat → Nat, ∀ t ∈ ts, ∀ ds, t.dependencies = some ds →
    ∀ d ∈ ds, rank (TaskIdentifier.task_hash d) < rank (TaskIdentifier.task_hash t.identifier)

/-- the layering invariant (spec P1/I1): every task placed at depth d has
each dependency resolvable (by hash) to a task at a strictly smaller depth. -/
@[reducible] def LayerInv {V : Type} (g : Layers V) : Prop :=
  ∀ dIdx < List.length g, ∀ t ∈ TaskGraph.tasks_at g dIdx,
    ∀ ds, t.dependencies = some ds →
      ∀ d ∈ ds, ∃ dep < dIdx, ∃ u ∈ TaskGraph.tasks_at g dep,
        TaskIdentifier.task_hash u.identifier = TaskIdentifier.task_hash d

/-- the graph of a from_tasks result (empty on Err), for stating concrete
counterexamples without comparing tasks (whose actions are functions). -/
def graphOf {V : Type} (r : Except Status (Layers V) × List (Task V)) : Layers V :=
  match r.1 with
  | .ok g => g
  | .error _ => []

/-- the per-layer identifier lists of a graph. -/
def graphIds {V : Type} (g : Layers V) : List (List (Nat × String)) :=
  g.map (fun layer => layer.map (fun t => t.identifier))

/-- number of tasks in the graph matching a dependency's hash (the comparison
is written in the source's order, dependency hash first). -/
def cnt {V : Type} (d : Nat × String) (g : Layers V) : Nat :=
  List.countP
    (fun u => decide (TaskIdentifier.task_hash d = TaskIdentifier.task_hash u.identifier))
    g.flatten

/-- the tasks whose dependency attribute is absent (what the seeding loop
moves to layer 0), in input order. -/
def rootsOf {V : Type} (ts : List (Task V)) : List (Task V) :=
  ts.filter (fun t => t.dependencies = none)

/-- the tasks left in the caller's list after seeding, in input order. -/
def nonRootsOf {V : Type} (ts : List (Task V)) : List (Task V) :=
  ts.filter (fun t => ¬ t.dependencies = none)

/-- a task all of whose dependencies are (hash-)resolvable in the graph. -/
def Placeable {V : Type} (t : Task V) (g : Layers V) : Prop :=
  ∃ ds, t.dependencies = some ds ∧ ∀ d ∈ ds, 1 ≤ cnt d g

/-- sample task over V = Nat for concrete inputs: a trivial action, the given
identifier and explicit dependency set. -/
def natTask (n : Nat) (c : String) (deps : Option (List (Nat × String))) : Task Nat :=
  { action := fun _ => (none, ⟨.SUCCESS, ""⟩), identifier := (n, c), dependencies := deps }

/-- sample task whose action reports how many positional arguments it
received (its output is the argument count). -/
def arityTask : Task Nat :=
  { action := fun xs => (some xs.length, ⟨.SUCCESS, ""⟩),
    identifier := (1, "a"), args := [.value 7] }

/-- sample task with a single ForwardResourcesFrom placeholder argument. -/
def fwdTask : Task Nat :=
  { action := fun _ => (some 0, ⟨.SUCCESS, ""⟩),
    identifier := (1, "a"), args := [.forwardResourcesFrom (2, "b")],
    dependencies := some [(2, "b")] }

-- ===========================================================================
-- Theorems
-- ===========================================================================

-- ---------------------------------------------------------------------------
-- Identity hashing (claim C6)
-- ---------------------------------------------------------------------------

/-- C6: the claim states task_hash((id, ctx)) hashes the *minimal* big-endian
encoding of id.  The code computes the byte length as
`id.bit_length() + 7 // 8` = `bit_length(id)` (precedence slip), so for
id = 2 it feeds the zero-padded two-byte string 00 02 to SHA-256 where the
minimal encoding is the single byte 02, and the two digests differ. -/
theorem task_hash_not_minimal_encoding :
    TaskIdentifier.idBytes 2 = [0, 2] ∧
    TaskIdentifier.idBytesMinimal 2 = [2] ∧
    TaskIdentifier.task_hash (2, "") ≠ TaskIdentifier.task_hash_spec (2, "") := by
  refine ⟨by decide, by decide, by decide⟩

-- the remaining development treats identifier hashes as opaque values, so
-- keep the elaborator from unfolding the hash function into its SHA-256 body
-- (the attribute is reset before the concrete evaluations at the end).
attribute [irreducible] TaskIdentifier.task_hash

-- ---------------------------------------------------------------------------
-- partition (claim C3)
-- ---------------------------------------------------------------------------

theorem partitionLoop_length {V : Type} (g : Nat) :
    ∀ (xs : List V) (i : Nat) (acc : List (List V)),
      (partitionLoop g xs i acc).length = acc.length := by
  intro xs
  induction xs with
  | nil => intro i acc; rfl
  | cons v rest ih =>
    intro i acc
    simp only [partitionLoop, ih, List.length_set]

theorem partitionLoop_getD {V : Type} (g : Nat) :
    ∀ (xs : List V) (i : Nat) (acc : List (List V)), acc.length = g →
      ∀ j, j < g →
        (partitionLoop g xs i acc).getD j [] =
          acc.getD j [] ++ ((List.enumFrom i xs).filter (fun p => p.1 % g = j)).map Prod.snd := by
  intro xs
  induction xs with
  | nil => intro i acc _ j _; simp [partitionLoop, List.enumFrom]
  | cons v rest ih =>
    intro i acc hlen j hj
    have hset : (acc.set (i % g) (acc.getD (i % g) [] ++ [v])).length = g := by
      simp [hlen]
    have hrec := ih (i + 1) (acc.set (i % g) (acc.getD (i % g) [] ++ [v])) hset j hj
    simp only [partitionLoop, hrec, List.enumFrom, List.filter]
    by_cases hc : i % g = j
    · subst hc
      have hlt : i % g < acc.length := by rw [hlen]; exact hj
      simp [List.getD_eq_getElem?_getD, List.getElem?_set_self hlt, List.append_assoc]
    · have hne : (acc.set (i % g) (acc.getD (i % g) [] ++ [v])).getD j [] = acc.getD j [] := by
        simp [List.getD_eq_getElem?_getD, List.getElem?_set_ne hc]
      simp [hne, hc]

theorem flatten_set_append {V : Type} :
    ∀ (l : List (List V)) (j : Nat), j < l.length → ∀ v : V,
      (l.set j (l.getD j [] ++ [v])).flatten.Perm (l.flatten ++ [v]) := by
  intro l
  induction l with
  | nil => intro j hj v; simp at hj
  | cons a tl ih =>
    intro j hj v
    cases j with
    | zero =>
      simp only [List.set, List.getD_cons_zero, List.flatten_cons, List.append_assoc]
      exact List.Perm.append_left a (List.perm_append_comm ..)
    | succ j =>
      simp only [List.set, List.getD_cons_succ, List.flatten_cons, List.length_cons] at *
      have hperm := ih j (by omega) v
      refine List.Perm.trans (List.Perm.append_left a hperm) ?_
      simp [List.append_assoc]

theorem partitionLoop_flatten_perm {V : Type} (g : Nat) :
    ∀ (xs : List V) (i : Nat) (acc : List (List V)), acc.length = g → 0 < g →
      (partitionLoop g xs i acc).flatten.Perm (acc.flatten ++ xs) := by
  intro xs
  induction xs with
  | nil => intro i acc _ _; simp [partitionLoop]
  | cons v rest ih =>
    intro i acc hlen hg
    have hset : (acc.set (i % g) (acc.getD (i % g) [] ++ [v])).length = g := by
      simp [hlen]
    have hrec := ih (i + 1) _ hset hg
    refine List.Perm.trans hrec ?_
    have hlt : i % g < acc.length := by rw [hlen]; exact Nat.mod_lt _ hg
    have hperm := flatten_set_append acc (i % g) hlt v
    refine List.Perm.trans (List.Perm.append_right rest hperm) ?_
    simp [List.append_assoc]

/-- C3: partition(xs, k) fails exactly when k < 1; otherwise it returns
min(k, len(xs)) groups (the empty list for empty input), every group is
non-empty, group j consists exactly of the items whose input index i
satisfies i mod g = j in input order, and the groups flatten to a
permutation of the input. -/
theorem partition_spec {V : Type} (xs : List V) (k : Int) :
    (k < 1 → (partition xs k).isOk = false) ∧
    (1 ≤ k → ∃ gs, partition xs k = .ok gs ∧
      gs.length = min k.toNat xs.length ∧
      (xs = [] → gs = []) ∧
      (∀ gl ∈ gs, gl ≠ []) ∧
      (∀ j, j < gs.length → gs.getD j [] =
        ((List.enumFrom 0 xs).filter (fun p => p.1 % gs.length = j)).map Prod.snd) ∧
      gs.flatten.Perm xs) := by
  constructor
  · intro hk
    simp [partition, hk, Except.isOk, Except.toBool]
  · intro hk
    have hk' : ¬ k < 1 := by omega
    set p : Nat := (k - max 0 (k - xs.length)).toNat with hp
    have hmin : p = min k.toNat xs.length := by omega
    have hpl : (List.replicate p ([] : List V)).length = p := by simp
    have hlen : (partitionLoop p xs 0 (List.replicate p [])).length = p := by
      rw [partitionLoop_length, hpl]
    refine ⟨partitionLoop p xs 0 (List.replicate p []), ?_, ?_, ?_, ?_, ?_, ?_⟩
    · simp [partition, hk']
    · rw [hlen, hmin]
    · intro hxs
      subst hxs
      have hpz : p = 0 := by simp [hmin]
      simp [hpz, partitionLoop]
    · -- each group is non-empty
      intro gl hgl
      obtain ⟨j, hj, hget⟩ := List.getElem_of_mem hgl
      rw [hlen] at hj
      have hchar := partitionLoop_getD p xs 0 (List.replicate p []) hpl j hj
      have hjxs : j < xs.length := by omega
      have hget2 : (List.enumFrom 0 xs).get? j = some (j, xs.get ⟨j, hjxs⟩) := by
        rw [List.get?_eq_getElem?, List.getElem?_enumFrom]
        simp [List.getElem?_eq_getElem hjxs, List.get_eq_getElem]
      have hmem := List.get?_mem hget2
      have hmemf : (j, xs.get ⟨j, hjxs⟩) ∈
          (List.enumFrom 0 xs).filter (fun q => decide (q.1 % p = j)) := by
        refine List.mem_filter.2 ⟨hmem, ?_⟩
        simp [Nat.mod_eq_of_lt hj]
      have hgd : (partitionLoop p xs 0 (List.replicate p [])).getD j [] = gl := by
        have hj' : j < (partitionLoop p xs 0 (List.replicate p [])).length := by omega
        simp [List.getD_eq_getElem?_getD, List.getElem?_eq_getElem hj', hget]
      intro hnil
      rw [hgd, hnil] at hchar
      have hemp : ((List.enumFrom 0 xs).filter (fun q => decide (q.1 % p = j))).map Prod.snd
          = [] := by simpa using hchar.symm
      have hx := List.mem_map_of_mem Prod.snd hmemf
      rw [hemp] at hx
      exact absurd hx (List.not_mem_nil _)
    · intro j hj
      rw [hlen] at hj ⊢
      exact (partitionLoop_getD p xs 0 (List.replicate p []) hpl j hj).trans (by simp)
    · by_cases hp0 : 0 < p
      · have := partitionLoop_flatten_perm p xs 0 (List.replicate p []) hpl hp0
        simpa using this
      · have hp' : p = 0 := by omega
        have hxsl : xs.length = 0 := by omega
        have hxs' : xs = [] := List.length_eq_zero.1 hxsl
        subst hxs'
        simp [hp', partitionLoop]

-- ---------------------------------------------------------------------------
-- Task.execute (claims C4, C8, C10)
-- ---------------------------------------------------------------------------

theorem resolveLoop_action_independent {V : Type} (t : Task V)
    (f : List V → Option V × Status) (r : Nat → Option V) :
    ∀ (as : List (Arg V)) (resolved : List V),
      resolveLoop { t with action := f } r as resolved = resolveLoop t r as resolved := by
  intro as
  induction as with
  | nil => intro resolved; rfl
  | cons a rest ih =>
    intro resolved
    cases a with
    | value v => simp only [resolveLoop, ih]
    | forwardResourcesFrom id =>
      simp only [resolveLoop]
      cases r (TaskIdentifier.task_hash id) with
      | none => rfl
      | some v => simp only [ih]

theorem resolveLoop_missing {V : Type} (t : Task V) (r : Nat → Option V) :
    ∀ (as : List (Arg V)) (resolved : List V),
      (∃ id, Arg.forwardResourcesFrom id ∈ as ∧ r (TaskIdentifier.task_hash id) = none) →
      ∃ id', Arg.forwardResourcesFrom id' ∈ as ∧ r (TaskIdentifier.task_hash id') = none ∧
        resolveLoop t r as resolved = .error ⟨.FAIL, cancelMessage t id'⟩ := by
  intro as
  induction as with
  | nil => intro resolved ⟨id, hmem, _⟩; exact absurd hmem (List.not_mem_nil _)
  | cons a rest ih =>
    intro resolved ⟨id, hmem, hmiss⟩
    cases a with
    | value v =>
      have hmem' : Arg.forwardResourcesFrom id ∈ rest := by
        cases List.mem_cons.1 hmem with
        | inl h => exact absurd h (by simp)
        | inr h => exact h
      obtain ⟨id', h1, h2, h3⟩ := ih (resolved ++ [v]) ⟨id, hmem', hmiss⟩
      exact ⟨id', List.mem_cons_of_mem _ h1, h2, by simpa [resolveLoop] using h3⟩
    | forwardResourcesFrom idh =>
      cases hr : r (TaskIdentifier.task_hash idh) with
      | none =>
        refine ⟨idh, List.mem_cons_self _ _, hr, ?_⟩
        simp [resolveLoop, hr]
      | some v =>
        have hmem' : Arg.forwardResourcesFrom id ∈ rest := by
          cases List.mem_cons.1 hmem with
          | inl h =>
            have : id = idh := by injection h
            rw [this, hr] at hmiss
            exact absurd hmiss (by simp)
          | inr h => exact h
        obtain ⟨id', h1, h2, h3⟩ := ih (resolved ++ [v]) ⟨id, hmem', hmiss⟩
        refine ⟨id', List.mem_cons_of_mem _ h1, h2, ?_⟩
        simpa [resolveLoop, hr] using h3

/-- C4: if some positional argument is a ForwardResourcesFrom placeholder
whose producer's hash is absent from the resource pool, execute returns FAIL
with the message naming a missing producer (the first one encountered), and
the task's action is never invoked: the result is the same for every action,
and the task (in particular its outputs slot) is unchanged. -/
theorem execute_missing_producer {V : Type} (t : Task V) (r : Nat → Option V)
    (h : ∃ id, Arg.forwardResourcesFrom id ∈ t.args ∧ r (TaskIdentifier.task_hash id) = none) :
    ∃ id', Arg.forwardResourcesFrom id' ∈ t.args ∧ r (TaskIdentifier.task_hash id') = none ∧
      (t.execute r).1 = ⟨.FAIL, cancelMessage t id'⟩ ∧
      ∀ f : List V → Option V × Status,
        Task.execute { t with action := f } r = (⟨.FAIL, cancelMessage t id'⟩, { t with action := f }) := by
  obtain ⟨id', h1, h2, h3⟩ := resolveLoop_missing t r t.args [] h
  refine ⟨id', h1, h2, ?_, ?_⟩
  · simp [Task.execute, Task.resolve_arguments, h3]
  · intro f
    have hres : Task.resolve_arguments { t with action := f } r =
        .error ⟨.FAIL, cancelMessage t id'⟩ := by
      rw [Task.resolve_arguments]
      rw [show ({ t with action := f } : Task V).args = t.args from rfl]
      rw [resolveLoop_action_independent]
      exact h3
    simp [Task.execute, hres]

theorem execute_missing_producer_witness :
    (∃ id, Arg.forwardResourcesFrom id ∈ fwdTask.args ∧
      (fun _ => (none : Option Nat)) (TaskIdentifier.task_hash id) = none) ∧
    (∃ id', Arg.forwardResourcesFrom id' ∈ fwdTask.args ∧
      (fun _ => (none : Option Nat)) (TaskIdentifier.task_hash id') = none ∧
      (fwdTask.execute (fun _ => none)).1 = ⟨.FAIL, cancelMessage fwdTask id'⟩ ∧
      ∀ f : List Nat → Option Nat × Status,
        Task.execute { fwdTask with action := f } (fun _ => none) =
          (⟨.FAIL, cancelMessage fwdTask id'⟩, { fwdTask with action := f })) :=
  ⟨⟨(2, "b"), by simp [fwdTask], rfl⟩,
   execute_missing_producer fwdTask (fun _ => none) ⟨(2, "b"), by simp [fwdTask], rfl⟩⟩

/-- C8 (amended): when every argument resolves, execute invokes the action
with exactly the resolved positional arguments (no messenger is passed; the
source calls `self.action(*resolved_arguments)`), takes the returned pair as
(output, Status), returns that Status, and writes outputs exactly when the
status is SUCCESS with a non-None output. -/
theorem execute_calls_action_on_resolved {V : Type} (t : Task V) (r : Nat → Option V)
    (resolved : List V) (h : t.resolve_arguments r = .ok resolved) :
    (t.execute r).1 = (t.action resolved).2 ∧
    (t.execute r).2.outputs =
      (if (t.action resolved).2.status = StatusKind.SUCCESS ∧ (t.action resolved).1.isSome
       then (t.action resolved).1 else t.outputs) := by
  rw [Task.execute, h]
  by_cases hc : (t.action resolved).2.status = StatusKind.SUCCESS ∧ (t.action resolved).1.isSome
  · simp [hc]
  · simp [hc]

theorem execute_calls_action_on_resolved_witness :
    ((natTask 1 "a" none).resolve_arguments (fun _ => none) = .ok [] ∧
     ((natTask 1 "a" none).execute (fun _ => none)).1 = ((natTask 1 "a" none).action []).2 ∧
     ((natTask 1 "a" none).execute (fun _ => none)).2.outputs =
       (if ((natTask 1 "a" none).action []).2.status = StatusKind.SUCCESS ∧
           ((natTask 1 "a" none).action []).1.isSome
        then ((natTask 1 "a" none).action []).1 else (natTask 1 "a" none).outputs)) :=
  ⟨rfl,
   execute_calls_action_on_resolved (natTask 1 "a" none) (fun _ => none) [] rfl⟩

/-- C8 (counterexample to the claim as stated): arityTask's action reports
the number of positional arguments it received as its output.  Executing it
stores output 1 = the number of resolved arguments of the single-argument
task, not 1 + 1 as it would if a messenger were prepended as the first
argument: the action receives no messenger. -/
theorem execute_no_messenger :
    (arityTask.execute (fun _ => none)).2.outputs = some 1 ∧
    arityTask.args.length = 1 := by
  refine ⟨by decide, by decide⟩

/-- C10: if execute returns a non-SUCCESS status, or the action returns a
None output, the task is unchanged; in particular the outputs slot keeps its
prior value. -/
theorem execute_outputs_unchanged {V : Type} (t : Task V) (r : Nat → Option V)
    (h : (t.execute r).1.status ≠ StatusKind.SUCCESS ∨
      ∃ res, t.resolve_arguments r = .ok res ∧ (t.action res).1 = none) :
    (t.execute r).2 = t := by
  rw [Task.execute]
  cases hres : t.resolve_arguments r with
  | error e => rfl
  | ok res =>
    by_cases hc : (t.action res).2.status = StatusKind.SUCCESS ∧ (t.action res).1.isSome
    · exfalso
      cases h with
      | inl hne =>
        rw [Task.execute, hres] at hne
        simp [hc] at hne
      | inr hex =>
        obtain ⟨res', hr', hnone⟩ := hex
        rw [hres] at hr'
        have heq : res = res' := by injection hr'
        rw [heq, hnone] at hc
        simp at hc
    · simp [hc]

theorem execute_outputs_unchanged_witness :
    ((∃ res, (natTask 1 "a" none).resolve_arguments (fun _ => none) = .ok res ∧
        ((natTask 1 "a" none).action res).1 = none) ∧
     ((natTask 1 "a" none).execute (fun _ => none)).2 = natTask 1 "a" none) :=
  ⟨⟨[], rfl, rfl⟩,
   execute_outputs_unchanged (natTask 1 "a" none) (fun _ => none) (Or.inr ⟨[], rfl, rfl⟩)⟩

-- ---------------------------------------------------------------------------
-- The seeding loop (task.py lines 177-186)
-- ---------------------------------------------------------------------------

theorem seedAux_spec {V : Type} :
    ∀ (n : Nat) (ts roots : List (Task V)), n ≤ ts.length →
      seedAux n ts roots =
        (ts.take (ts.length - n) ++ nonRootsOf (ts.drop (ts.length - n)),
         roots ++ rootsOf (ts.drop (ts.length - n))) := by
  intro n
  induction n with
  | zero =>
    intro ts roots _
    simp [seedAux, rootsOf, nonRootsOf]
  | succ n ih =>
    intro ts roots h
    have hj : ts.length - (n + 1) < ts.length := by omega
    have hget : List.get? ts (ts.length - (n + 1)) = some (ts.get ⟨ts.length - (n + 1), hj⟩) := by
      rw [List.get?_eq_getElem?, List.getElem?_eq_getElem hj, List.get_eq_getElem]
    have hdrop : ts.drop (ts.length - (n + 1)) =
        ts.get ⟨ts.length - (n + 1), hj⟩ :: ts.drop (ts.length - (n + 1) + 1) := by
      rw [List.get_eq_getElem]
      exact List.drop_eq_getElem_cons hj
    rw [seedAux, hget]
    dsimp only
    by_cases hdep : (ts.get ⟨ts.length - (n + 1), hj⟩).dependencies = none
    · rw [if_pos hdep]
      have hle : (ts.eraseIdx (ts.length - (n + 1))).length = ts.length - 1 :=
        List.length_eraseIdx_of_lt hj
      rw [ih _ _ (by omega)]
      have hjj : (ts.eraseIdx (ts.length - (n + 1))).length - n = ts.length - (n + 1) := by
        rw [hle]; omega
      have htl : (ts.take (ts.length - (n + 1))).length = ts.length - (n + 1) := by
        rw [List.length_take]; omega
      have herase : ts.eraseIdx (ts.length - (n + 1)) =
          ts.take (ts.length - (n + 1)) ++ ts.drop (ts.length - (n + 1) + 1) :=
        List.eraseIdx_eq_take_drop_succ ..
      have hnr : nonRootsOf (ts.drop (ts.length - (n + 1))) =
          nonRootsOf (ts.drop (ts.length - (n + 1) + 1)) := by
        rw [nonRootsOf, nonRootsOf, hdrop]
        simp only [List.filter_cons]
        rw [hdep]
        simp
      have hr : rootsOf (ts.drop (ts.length - (n + 1))) =
          ts.get ⟨ts.length - (n + 1), hj⟩ :: rootsOf (ts.drop (ts.length - (n + 1) + 1)) := by
        rw [rootsOf, rootsOf, hdrop]
        simp only [List.filter_cons]
        rw [hdep]
        simp
      rw [hjj, herase, List.take_left' htl, List.drop_left' htl, hnr, hr]
      simp [List.append_assoc]
    · rw [if_neg hdep]
      rw [ih _ _ (by omega)]
      have hjj : ts.length - n = ts.length - (n + 1) + 1 := by omega
      have htake : ts.take (ts.length - (n + 1) + 1) =
          ts.take (ts.length - (n + 1)) ++ [ts.get ⟨ts.length - (n + 1), hj⟩] := by
        rw [List.take_succ, List.getElem?_eq_getElem hj]
        simp [List.get_eq_getElem]
      have hnr : nonRootsOf (ts.drop (ts.length - (n + 1))) =
          ts.get ⟨ts.length - (n + 1), hj⟩ :: nonRootsOf (ts.drop (ts.length - (n + 1) + 1)) := by
        rw [nonRootsOf, nonRootsOf, hdrop]
        simp only [List.filter_cons]
        cases hdo : (ts.get ⟨ts.length - (n + 1), hj⟩).dependencies with
        | none => exact absurd hdo hdep
        | some l => simp
      have hr : rootsOf (ts.drop (ts.length - (n + 1))) =
          rootsOf (ts.drop (ts.length - (n + 1) + 1)) := by
        rw [rootsOf, rootsOf, hdrop]
        simp only [List.filter_cons]
        cases hdo : (ts.get ⟨ts.length - (n + 1), hj⟩).dependencies with
        | none => exact absurd hdo hdep
        | some l => simp
      rw [hjj, htake, hnr, hr]
      simp only [List.append_assoc, List.singleton_append]

theorem seed_spec {V : Type} (ts : List (Task V)) :
    seedAux ts.length ts [] = (nonRootsOf ts, rootsOf ts) := by
  have := seedAux_spec ts.length ts [] (Nat.le_refl _)
  simpa using this

-- ---------------------------------------------------------------------------
-- insert_at on the layer representation
-- ---------------------------------------------------------------------------

theorem insert_at_length {V : Type} (g : Layers V) (t : Task V) (d : Nat) :
    g.length ≤ (TaskGraph.insert_at g t d).length ∧
    (TaskGraph.insert_at g t d).length ≤ g.length + 1 := by
  rw [TaskGraph.insert_at]
  by_cases hd : d < g.length
  · simp [hd]
  · simp [hd]

theorem insert_at_ne_nil {V : Type} (g : Layers V) (t : Task V) (d : Nat) :
    TaskGraph.insert_at g t d ≠ [] := by
  rw [TaskGraph.insert_at]
  by_cases hd : d < g.length
  · simp only [if_pos hd]
    intro hnil
    have hlen := congrArg List.length hnil
    rw [List.length_set] at hlen
    simp only [List.length_nil] at hlen
    omega
  · simp [hd]

theorem insert_at_flatten_perm {V : Type} (g : Layers V) (t : Task V) (d : Nat) :
    (TaskGraph.insert_at g t d).flatten.Perm (g.flatten ++ [t]) := by
  rw [TaskGraph.insert_at]
  by_cases hd : d < g.length
  · simp only [if_pos hd]
    exact flatten_set_append g d hd t
  · simp [hd]

theorem tasks_at_insert_at_self {V : Type} (g : Layers V) (t : Task V) (d : Nat)
    (h : d ≤ g.length) :
    TaskGraph.tasks_at (TaskGraph.insert_at g t d) d = TaskGraph.tasks_at g d ++ [t] := by
  rw [TaskGraph.insert_at, TaskGraph.tasks_at, TaskGraph.tasks_at]
  by_cases hd : d < g.length
  · simp only [if_pos hd]
    simp [List.getD_eq_getElem?_getD, List.getElem?_set_self hd]
  · have hdl : d = g.length := by omega
    simp only [if_neg hd]
    subst hdl
    rw [List.getD_eq_getElem?_getD, List.getElem?_append_right (Nat.le_refl _)]
    simp [List.getD_eq_getElem?_getD, List.getElem?_len_le (Nat.le_refl _)]

theorem tasks_at_insert_at_ne {V : Type} (g : Layers V) (t : Task V) (d k : Nat)
    (hne : k ≠ d) (hdle : d ≤ g.length) :
    TaskGraph.tasks_at (TaskGraph.insert_at g t d) k = TaskGraph.tasks_at g k := by
  rw [TaskGraph.insert_at, TaskGraph.tasks_at, TaskGraph.tasks_at]
  by_cases hd : d < g.length
  · simp only [if_pos hd]
    simp [List.getD_eq_getElem?_getD, List.getElem?_set_ne (fun h => hne h.symm)]
  · have hdl : d = g.length := by omega
    simp only [if_neg hd]
    by_cases hk : k < g.length
    · rw [List.getD_eq_getElem?_getD, List.getElem?_append_left hk, List.getD_eq_getElem?_getD]
    · have h1 : List.getD g k [] = [] := by
        rw [List.getD_eq_getElem?_getD, List.getElem?_len_le (by omega)]
        rfl
      have h2 : List.getD (g ++ [[t]]) k [] = [] := by
        have hklen : (g ++ [[t]]).length ≤ k := by
          simp [List.length_append]
          omega
        rw [List.getD_eq_getElem?_getD, List.getElem?_len_le hklen]
        rfl
      rw [h1, h2]

-- ---------------------------------------------------------------------------
-- the dependency search (task.py lines 196-205)
-- ---------------------------------------------------------------------------

theorem scanLayer_found {V : Type} (d : Nat × String) (depth : Nat) :
    ∀ (layer : List (Task V)) (acc : Nat × Nat),
      (scanLayer d depth layer acc).1 = acc.1 +
        List.countP
          (fun u => decide (TaskIdentifier.task_hash d = TaskIdentifier.task_hash u.identifier))
          layer := by
  intro layer
  induction layer with
  | nil => intro acc; simp [scanLayer]
  | cons u rest ih =>
    intro acc
    rw [show scanLayer d depth (u :: rest) acc =
          scanLayer d depth rest
            (if TaskIdentifier.task_hash d = TaskIdentifier.task_hash u.identifier then
              (acc.1 + 1, if acc.2 < depth then depth else acc.2)
             else acc) from rfl]
    rw [List.countP_cons]
    by_cases hm : TaskIdentifier.task_hash d = TaskIdentifier.task_hash u.identifier
    · rw [if_pos hm, ih]
      simp [hm]
      omega
    · rw [if_neg hm, ih]
      simp [hm]

theorem scanLayer_deepest {V : Type} (d : Nat × String) (depth : Nat) :
    ∀ (layer : List (Task V)) (acc : Nat × Nat),
      acc.2 ≤ (scanLayer d depth layer acc).2 ∧
      (scanLayer d depth layer acc).2 ≤ max acc.2 depth ∧
      (0 < List.countP
          (fun u => decide (TaskIdentifier.task_hash d = TaskIdentifier.task_hash u.identifier))
          layer → depth ≤ (scanLayer d depth layer acc).2) := by
  intro layer
  induction layer with
  | nil =>
    intro acc
    refine ⟨Nat.le_refl _, by simp [scanLayer], ?_⟩
    intro hpos
    simp at hpos
  | cons u rest ih =>
    intro acc
    rw [show scanLayer d depth (u :: rest) acc =
          scanLayer d depth rest
            (if TaskIdentifier.task_hash d = TaskIdentifier.task_hash u.identifier then
              (acc.1 + 1, if acc.2 < depth then depth else acc.2)
             else acc) from rfl]
    by_cases hm : TaskIdentifier.task_hash d = TaskIdentifier.task_hash u.identifier
    · rw [if_pos hm]
      obtain ⟨h1, h2, h3⟩ := ih (acc.1 + 1, if acc.2 < depth then depth else acc.2)
      refine ⟨?_, ?_, ?_⟩
      · refine Nat.le_trans ?_ h1
        by_cases hc : acc.2 < depth
        · simp [hc]; omega
        · simp [hc]
      · refine Nat.le_trans h2 ?_
        by_cases hc : acc.2 < depth
        · simp [hc]
        · simp [hc]
      · intro _
        refine Nat.le_trans ?_ h1
        by_cases hc : acc.2 < depth
        · simp [hc]
        · simp [hc]; omega
    · rw [if_neg hm]
      obtain ⟨h1, h2, h3⟩ := ih acc
      refine ⟨h1, h2, ?_⟩
      intro hpos
      rw [List.countP_cons] at hpos
      simp only [hm, decide_False, if_false, Nat.add_zero] at hpos
      exact h3 hpos

theorem scanDepAux_found {V : Type} (d : Nat × String) :
    ∀ (layers : List (List (Task V))) (depth : Nat) (acc : Nat × Nat),
      (scanDepAux d layers depth acc).1 = acc.1 +
        List.countP
          (fun u => decide (TaskIdentifier.task_hash d = TaskIdentifier.task_hash u.identifier))
          layers.flatten := by
  intro layers
  induction layers with
  | nil => intro depth acc; simp [scanDepAux]
  | cons layer rest ih =>
    intro depth acc
    rw [scanDepAux, ih, scanLayer_found]
    simp [List.countP_append]
    omega

theorem scanDepAux_deepest_mono {V : Type} (d : Nat × String) :
    ∀ (layers : List (List (Task V))) (depth : Nat) (acc : Nat × Nat),
      acc.2 ≤ (scanDepAux d layers depth acc).2 := by
  intro layers
  induction layers with
  | nil => intro depth acc; simp [scanDepAux]
  | cons layer rest ih =>
    intro depth acc
    rw [scanDepAux]
    exact Nat.le_trans (scanLayer_deepest d depth layer acc).1 (ih (depth + 1) _)

theorem scanDepAux_deepest_le {V : Type} (d : Nat × String) :
    ∀ (layers : List (List (Task V))) (depth : Nat) (acc : Nat × Nat),
      (scanDepAux d layers depth acc).2 ≤ max acc.2 (depth + layers.length - 1) := by
  intro layers
  induction layers with
  | nil => intro depth acc; rw [scanDepAux]; omega
  | cons layer rest ih =>
    intro depth acc
    rw [scanDepAux]
    have h1 := (scanLayer_deepest d depth layer acc).2.1
    have h2 := ih (depth + 1) (scanLayer d depth layer acc)
    simp only [List.length_cons]
    omega

theorem scanDepAux_witness {V : Type} (d : Nat × String) :
    ∀ (layers : List (List (Task V))) (depth : Nat) (acc : Nat × Nat),
      0 < List.countP
            (fun u => decide (TaskIdentifier.task_hash d = TaskIdentifier.task_hash u.identifier))
            layers.flatten →
      ∃ k, k < layers.length ∧
        0 < List.countP
              (fun u => decide (TaskIdentifier.task_hash d = TaskIdentifier.task_hash u.identifier))
              (layers.getD k []) ∧
        depth + k ≤ (scanDepAux d layers depth acc).2 := by
  intro layers
  induction layers with
  | nil => intro depth acc hpos; simp at hpos
  | cons layer rest ih =>
    intro depth acc hpos
    rw [List.flatten_cons, List.countP_append] at hpos
    by_cases hl : 0 < List.countP
        (fun u => decide (TaskIdentifier.task_hash d = TaskIdentifier.task_hash u.identifier))
        layer
    · refine ⟨0, by simp, by simpa using hl, ?_⟩
      rw [scanDepAux]
      have hd := (scanLayer_deepest d depth layer acc).2.2 hl
      have hmono := scanDepAux_deepest_mono d rest (depth + 1) (scanLayer d depth layer acc)
      omega
    · have hr : 0 < List.countP
          (fun u => decide (TaskIdentifier.task_hash d = TaskIdentifier.task_hash u.identifier))
          rest.flatten := by omega
      obtain ⟨k, hk1, hk2, hk3⟩ := ih (depth + 1) (scanLayer d depth layer acc) hr
      refine ⟨k + 1, by simpa using hk1, by simpa using hk2, ?_⟩
      rw [scanDepAux]
      omega

theorem scanDeps_found {V : Type} (g : Layers V) :
    ∀ (ds : List (Nat × String)) (acc : Nat × Nat),
      (ds.foldl (fun acc d => scanDepAux d g 0 acc) acc).1 =
        acc.1 + (ds.map (fun d => cnt d g)).sum := by
  intro ds
  induction ds with
  | nil => intro acc; simp
  | cons d rest ih =>
    intro acc
    rw [List.foldl_cons, ih, List.map_cons, List.sum_cons, scanDepAux_found]
    rw [cnt]
    omega

theorem scanDeps_found_eq {V : Type} (g : Layers V) (ds : List (Nat × String)) :
    (scanDeps g ds).1 = (ds.map (fun d => cnt d g)).sum := by
  rw [scanDeps, scanDeps_found]
  simp

theorem scanDeps_deepest_mono {V : Type} (g : Layers V) :
    ∀ (ds : List (Nat × String)) (acc : Nat × Nat),
      acc.2 ≤ (ds.foldl (fun acc d => scanDepAux d g 0 acc) acc).2 := by
  intro ds
  induction ds with
  | nil => intro acc; simp
  | cons d rest ih =>
    intro acc
    rw [List.foldl_cons]
    exact Nat.le_trans (scanDepAux_deepest_mono d g 0 acc) (ih _)

theorem scanDeps_deepest_lt {V : Type} (g : Layers V) (hg : g ≠ []) (ds : List (Nat × String)) :
    (scanDeps g ds).2 < g.length := by
  have hlen : 0 < g.length := List.length_pos.2 hg
  rw [scanDeps]
  suffices h : ∀ (ds : List (Nat × String)) (acc : Nat × Nat), acc.2 < g.length →
      (ds.foldl (fun acc d => scanDepAux d g 0 acc) acc).2 < g.length by
    exact h ds (0, 0) hlen
  intro ds'
  induction ds' with
  | nil => intro acc hacc; simpa using hacc
  | cons d rest ih =>
    intro acc hacc
    rw [List.foldl_cons]
    refine ih _ ?_
    have := scanDepAux_deepest_le d g 0 acc
    omega

theorem scanDeps_witness {V : Type} (g : Layers V) (ds : List (Nat × String))
    (d : Nat × String) (hd : d ∈ ds) (hpos : 0 < cnt d g) :
    ∃ k, k < g.length ∧ k ≤ (scanDeps g ds).2 ∧
      ∃ u ∈ TaskGraph.tasks_at g k,
        TaskIdentifier.task_hash d = TaskIdentifier.task_hash u.identifier := by
  rw [scanDeps]
  suffices h : ∀ (ds' : List (Nat × String)) (acc : Nat × Nat), d ∈ ds' →
      ∃ k, k < g.length ∧
        k ≤ (ds'.foldl (fun acc d => scanDepAux d g 0 acc) acc).2 ∧
        ∃ u ∈ TaskGraph.tasks_at g k,
          TaskIdentifier.task_hash d = TaskIdentifier.task_hash u.identifier by
    exact h ds (0, 0) hd
  intro ds'
  induction ds' with
  | nil => intro acc hmem; exact absurd hmem (List.not_mem_nil _)
  | cons d0 rest ih =>
    intro acc hmem
    rw [List.foldl_cons]
    cases List.mem_cons.1 hmem with
    | inl heq =>
      subst heq
      obtain ⟨k, hk1, hk2, hk3⟩ := scanDepAux_witness d g 0 acc (by rw [cnt] at hpos; exact hpos)
      refine ⟨k, hk1, ?_, ?_⟩
      · have := scanDeps_deepest_mono g rest (scanDepAux d g 0 acc)
        omega
      · obtain ⟨u, hu1, hu2⟩ := List.countP_pos_iff.1 hk2
        exact ⟨u, by rw [TaskGraph.tasks_at]; exact hu1, by simpa using hu2⟩
    | inr hmem' => exact ih _ hmem'

-- ---------------------------------------------------------------------------
-- one enumerate pass (task.py lines 193-213)
-- ---------------------------------------------------------------------------

theorem forPassAux_dichotomy {V : Type} :
    ∀ (n : Nat) (ts : List (Task V)) (g : Layers V) (r : Bool),
      (forPassAux n ts g r).2.2.2 = none →
      (forPassAux n ts g r = (ts, g, r, none)) ∨
      ((forPassAux n ts g r).2.2.1 = true ∧ (forPassAux n ts g r).1.length < ts.length) := by
  intro n
  induction n using Nat.strong_induction_on with
  | _ n ih =>
    match n with
    | 0 => intro ts g r _; left; rfl
    | n + 1 =>
      intro ts g r he
      rw [forPassAux] at he ⊢
      cases hget : List.get? ts (ts.length - (n + 1)) with
      | none => dsimp only; left; rfl
      | some t =>
        rw [hget] at he
        dsimp only at he ⊢
        have hi : ts.length - (n + 1) < ts.length := (List.get?_eq_some.1 hget).1
        cases hdep : t.dependencies with
        | none =>
          rw [hdep] at he
          dsimp only at he ⊢
          exact ih n (by omega) ts g r he
        | some ds =>
          rw [hdep] at he
          dsimp only at he ⊢
          by_cases hfd : (scanDeps g ds).1 = ds.length
          · rw [if_pos hfd] at he ⊢
            cases n with
            | zero =>
              dsimp only at he ⊢
              right
              refine ⟨rfl, ?_⟩
              dsimp only
              rw [List.length_eraseIdx_of_lt hi]
              omega
            | succ m =>
              dsimp only at he ⊢
              have hrec := ih m (by omega) (ts.eraseIdx (ts.length - (m + 1 + 1)))
                (TaskGraph.insert_at g t ((scanDeps g ds).2 + 1)) true he
              cases hrec with
              | inl hsame =>
                right
                rw [hsame]
                refine ⟨rfl, ?_⟩
                dsimp only
                rw [List.length_eraseIdx_of_lt hi]
                omega
              | inr hlt =>
                right
                refine ⟨hlt.1, ?_⟩
                refine Nat.lt_trans hlt.2 ?_
                rw [List.length_eraseIdx_of_lt hi]
                omega
          · rw [if_neg hfd] at he ⊢
            by_cases hgt : (scanDeps g ds).1 > ds.length
            · rw [if_pos hgt] at he
              simp at he
            · rw [if_neg hgt] at he ⊢
              exact ih n (by omega) ts g r he

theorem countP_map_nodup_le_one {α β : Type} [DecidableEq β] (f : α → β) :
    ∀ (l : List α), (l.map f).Nodup → ∀ x : β,
      List.countP (fun u => decide (x = f u)) l ≤ 1 := by
  intro l
  induction l with
  | nil => intro _ x; simp
  | cons a rest ih =>
    intro hnd x
    rw [List.map_cons, List.nodup_cons] at hnd
    rw [List.countP_cons]
    by_cases hx : x = f a
    · have hzero : List.countP (fun u => decide (x = f u)) rest = 0 := by
        rw [List.countP_eq_zero]
        intro b hb
        simp only [decide_eq_true_eq]
        intro hxb
        rw [hx] at hxb
        refine hnd.1 ?_
        rw [hxb]
        exact List.mem_map_of_mem f hb
      rw [hzero]
      have hcond : decide (x = f a) = true := by simp [hx]
      simp only [hcond, if_true]
      omega
    · have hcond : decide (x = f a) = false := by simp [hx]
      simp only [hcond, if_false, Nat.add_zero]
      exact ih hnd.2 x

theorem sum_map_le_length {α : Type} (f : α → Nat) :
    ∀ (l : List α), (∀ x ∈ l, f x ≤ 1) → (l.map f).sum ≤ l.length := by
  intro l
  induction l with
  | nil => intro _; simp
  | cons a rest ih =>
    intro hle
    rw [List.map_cons, List.sum_cons, List.length_cons]
    have h1 := hle a (List.mem_cons_self _ _)
    have h2 := ih (fun x hx => hle x (List.mem_cons_of_mem _ hx))
    omega

theorem sum_map_eq_length {α : Type} (f : α → Nat) :
    ∀ (l : List α), (∀ x ∈ l, f x ≤ 1) → (l.map f).sum = l.length →
      ∀ x ∈ l, f x = 1 := by
  intro l
  induction l with
  | nil => intro _ _ x hx; exact absurd hx (List.not_mem_nil _)
  | cons a rest ih =>
    intro hle hsum x hx
    rw [List.map_cons, List.sum_cons, List.length_cons] at hsum
    have h1 := hle a (List.mem_cons_self _ _)
    have h2 := sum_map_le_length f rest (fun y hy => hle y (List.mem_cons_of_mem _ hy))
    cases List.mem_cons.1 hx with
    | inl heq => subst heq; omega
    | inr hmem =>
      refine ih (fun y hy => hle y (List.mem_cons_of_mem _ hy)) (by omega) x hmem

theorem perm_cons_eraseIdx {α : Type} {l : List α} {i : Nat} {a : α}
    (h : List.get? l i = some a) : l.Perm (a :: l.eraseIdx i) := by
  have hi : i < l.length := (List.get?_eq_some.1 h).1
  have hget : l.get ⟨i, hi⟩ = a := by
    have := (List.get?_eq_some.1 h).2
    simpa [List.get_eq_getElem] using this
  have hsplit : l = l.take i ++ a :: l.drop (i + 1) := by
    rw [show a :: l.drop (i + 1) = l.drop i from ?_]
    · exact (List.take_append_drop i l).symm
    · rw [← hget, List.get_eq_getElem]
      exact (List.drop_eq_getElem_cons hi).symm
  have herase : l.eraseIdx i = l.take i ++ l.drop (i + 1) :=
    List.eraseIdx_eq_take_drop_succ ..
  rw [herase]
  have h1 : l.Perm (l.take i ++ a :: l.drop (i + 1)) := by
    conv_lhs => rw [hsplit]
  exact h1.trans List.perm_middle

theorem tasks_at_insert_at_mem {V : Type} (g : Layers V) (t u : Task V) (d k : Nat)
    (hd : d ≤ g.length) (hu : u ∈ TaskGraph.tasks_at g k) :
    u ∈ TaskGraph.tasks_at (TaskGraph.insert_at g t d) k := by
  by_cases hk : k = d
  · subst hk
    rw [tasks_at_insert_at_self g t k hd]
    exact List.mem_append_left _ hu
  · rw [tasks_at_insert_at_ne g t d k hk hd]
    exact hu

theorem HashesNodup_of_perm {V : Type} {l l' : List (Task V)} (hp : l.Perm l')
    (h : HashesNodup l') : HashesNodup l := by
  unfold HashesNodup at h ⊢
  exact ((hp.map _).nodup_iff).2 h

theorem cnt_le_one {V : Type} {g : Layers V}
    (h : (g.flatten.map (fun t => TaskIdentifier.task_hash t.identifier)).Nodup)
    (d : Nat × String) : cnt d g ≤ 1 := by
  rw [cnt]
  exact countP_map_nodup_le_one _ g.flatten h (TaskIdentifier.task_hash d)

theorem forPassAux_sublist_perm {V : Type} :
    ∀ (n : Nat) (ts : List (Task V)) (g : Layers V) (r : Bool),
      (forPassAux n ts g r).1.Sublist ts ∧
      ((forPassAux n ts g r).2.1.flatten ++ (forPassAux n ts g r).1).Perm (g.flatten ++ ts) := by
  intro n
  induction n using Nat.strong_induction_on with
  | _ n ih =>
    match n with
    | 0 => intro ts g r; exact ⟨List.Sublist.refl _, List.Perm.refl _⟩
    | n + 1 =>
      intro ts g r
      rw [forPassAux]
      cases hget : List.get? ts (ts.length - (n + 1)) with
      | none => dsimp only; exact ⟨List.Sublist.refl _, List.Perm.refl _⟩
      | some t =>
        dsimp only
        have hi : ts.length - (n + 1) < ts.length := (List.get?_eq_some.1 hget).1
        have hperm1 : ts.Perm (t :: ts.eraseIdx (ts.length - (n + 1))) := perm_cons_eraseIdx hget
        cases hdep : t.dependencies with
        | none =>
          dsimp only
          exact ih n (by omega) ts g r
        | some ds =>
          dsimp only
          by_cases hfd : (scanDeps g ds).1 = ds.length
          · rw [if_pos hfd]
            have hstep : ∀ (ts2 : List (Task V)) (g2 : Layers V),
                ts2.Sublist (ts.eraseIdx (ts.length - (n + 1))) →
                (g2.flatten ++ ts2).Perm
                  ((TaskGraph.insert_at g t ((scanDeps g ds).2 + 1)).flatten ++
                    ts.eraseIdx (ts.length - (n + 1))) →
                ts2.Sublist ts ∧ (g2.flatten ++ ts2).Perm (g.flatten ++ ts) := by
              intro ts2 g2 hsub hp
              refine ⟨hsub.trans (List.eraseIdx_sublist ..), ?_⟩
              refine hp.trans ?_
              refine List.Perm.trans
                (List.Perm.append_right _ (insert_at_flatten_perm g t ((scanDeps g ds).2 + 1))) ?_
              refine List.Perm.trans ?_ (List.Perm.append_left g.flatten hperm1.symm)
              rw [List.append_assoc]
              exact List.Perm.append_left _ (List.Perm.refl _)
            cases n with
            | zero =>
              dsimp only
              exact hstep _ _ (List.Sublist.refl _) (List.Perm.refl _)
            | succ m =>
              dsimp only
              obtain ⟨ha, hb⟩ := ih m (by omega) (ts.eraseIdx (ts.length - (m + 1 + 1)))
                (TaskGraph.insert_at g t ((scanDeps g ds).2 + 1)) true
              exact hstep _ _ ha hb
          · rw [if_neg hfd]
            by_cases hgt : (scanDeps g ds).1 > ds.length
            · rw [if_pos hgt]
              exact ⟨List.Sublist.refl _, List.Perm.refl _⟩
            · rw [if_neg hgt]
              exact ih n (by omega) ts g r

theorem forPassAux_layer0 {V : Type} :
    ∀ (n : Nat) (ts : List (Task V)) (g : Layers V) (r : Bool), g ≠ [] →
      (forPassAux n ts g r).2.1 ≠ [] ∧
      TaskGraph.tasks_at (forPassAux n ts g r).2.1 0 = TaskGraph.tasks_at g 0 := by
  intro n
  induction n using Nat.strong_induction_on with
  | _ n ih =>
    match n with
    | 0 => intro ts g r hg; exact ⟨hg, rfl⟩
    | n + 1 =>
      intro ts g r hg
      rw [forPassAux]
      cases hget : List.get? ts (ts.length - (n + 1)) with
      | none => dsimp only; exact ⟨hg, rfl⟩
      | some t =>
        dsimp only
        cases hdep : t.dependencies with
        | none =>
          dsimp only
          exact ih n (by omega) ts g r hg
        | some ds =>
          dsimp only
          by_cases hfd : (scanDeps g ds).1 = ds.length
          · rw [if_pos hfd]
            have hdle : (scanDeps g ds).2 + 1 ≤ g.length := scanDeps_deepest_lt g hg ds
            have hnil := insert_at_ne_nil g t ((scanDeps g ds).2 + 1)
            have hl0 := tasks_at_insert_at_ne g t ((scanDeps g ds).2 + 1) 0 (by omega) hdle
            cases n with
            | zero =>
              dsimp only
              exact ⟨hnil, hl0⟩
            | succ m =>
              dsimp only
              obtain ⟨ha, hb⟩ := ih m (by omega) (ts.eraseIdx (ts.length - (m + 1 + 1)))
                (TaskGraph.insert_at g t ((scanDeps g ds).2 + 1)) true hnil
              exact ⟨ha, hb.trans hl0⟩
          · rw [if_neg hfd]
            by_cases hgt : (scanDeps g ds).1 > ds.length
            · rw [if_pos hgt]
              exact ⟨hg, rfl⟩
            · rw [if_neg hgt]
              exact ih n (by omega) ts g r hg

theorem tasks_at_len_le {V : Type} (g : Layers V) (k : Nat) (h : g.length ≤ k) :
    TaskGraph.tasks_at g k = [] := by
  rw [TaskGraph.tasks_at, List.getD_eq_getElem?_getD, List.getElem?_len_le h]
  rfl

theorem step_perm {V : Type} (ts : List (Task V)) (g : Layers V) (t : Task V) (i D : Nat)
    (hget : List.get? ts i = some t) :
    ((TaskGraph.insert_at g t D).flatten ++ ts.eraseIdx i).Perm (g.flatten ++ ts) := by
  refine List.Perm.trans
    (List.Perm.append_right _ (insert_at_flatten_perm g t D)) ?_
  refine List.Perm.trans ?_ (List.Perm.append_left g.flatten (perm_cons_eraseIdx hget).symm)
  rw [List.append_assoc]
  exact List.Perm.append_left _ (List.Perm.refl _)

theorem LayerInv_insert {V : Type} (g : Layers V) (t : Task V) (D : Nat)
    (hD : D + 1 ≤ g.length) (hinv : LayerInv g)
    (ds : List (Nat × String)) (hdep : t.dependencies = some ds)
    (hw : ∀ d ∈ ds, ∃ k, k < g.length ∧ k ≤ D ∧ ∃ u ∈ TaskGraph.tasks_at g k,
        TaskIdentifier.task_hash d = TaskIdentifier.task_hash u.identifier) :
    LayerInv (TaskGraph.insert_at g t (D + 1)) := by
  intro dIdx hlen t' ht' ds' hds' d hd
  by_cases hIdx : dIdx = D + 1
  · subst hIdx
    rw [tasks_at_insert_at_self g t (D + 1) hD] at ht'
    cases List.mem_append.1 ht' with
    | inr hnew =>
      have ht'' : t' = t := by simpa using hnew
      subst ht''
      rw [hdep] at hds'
      have hds'' : ds' = ds := by injection hds' with h; exact h.symm
      subst hds''
      obtain ⟨k, hk1, hk2, u, hu1, hu2⟩ := hw d hd
      exact ⟨k, by omega, u, tasks_at_insert_at_mem g _ u (D + 1) k hD hu1, hu2.symm⟩
    | inl hold =>
      by_cases hcase : D + 1 < g.length
      · obtain ⟨dep, hdep_lt, u, hu1, hu2⟩ := hinv (D + 1) hcase t' hold ds' hds' d hd
        exact ⟨dep, hdep_lt, u, tasks_at_insert_at_mem g t u (D + 1) dep hD hu1, hu2⟩
      · exfalso
        rw [tasks_at_len_le g (D + 1) (by omega)] at hold
        exact List.not_mem_nil _ hold
  · rw [tasks_at_insert_at_ne g t (D + 1) dIdx hIdx hD] at ht'
    by_cases hcase : dIdx < g.length
    · obtain ⟨dep, hdep_lt, u, hu1, hu2⟩ := hinv dIdx hcase t' ht' ds' hds' d hd
      exact ⟨dep, hdep_lt, u, tasks_at_insert_at_mem g t u (D + 1) dep hD hu1, hu2⟩
    · exfalso
      rw [tasks_at_len_le g dIdx (by omega)] at ht'
      exact List.not_mem_nil _ ht'

theorem forPassAux_no_error_inv {V : Type} :
    ∀ (n : Nat) (ts : List (Task V)) (g : Layers V) (r : Bool),
      HashesNodup (g.flatten ++ ts) → g ≠ [] → LayerInv g →
      (forPassAux n ts g r).2.2.2 = none ∧ LayerInv (forPassAux n ts g r).2.1 := by
  intro n
  induction n using Nat.strong_induction_on with
  | _ n ih =>
    match n with
    | 0 => intro ts g r _ _ hinv; exact ⟨rfl, hinv⟩
    | n + 1 =>
      intro ts g r hnd hg hinv
      rw [forPassAux]
      cases hget : List.get? ts (ts.length - (n + 1)) with
      | none => dsimp only; exact ⟨rfl, hinv⟩
      | some t =>
        dsimp only
        cases hdep : t.dependencies with
        | none =>
          dsimp only
          exact ih n (by omega) ts g r hnd hg hinv
        | some ds =>
          dsimp only
          have hflat_nd : (g.flatten.map (fun u => TaskIdentifier.task_hash u.identifier)).Nodup := by
            unfold HashesNodup at hnd
            rw [List.map_append] at hnd
            exact hnd.of_append_left
          have hcle : ∀ d ∈ ds, cnt d g ≤ 1 := fun d _ => cnt_le_one hflat_nd d
          have hsumle : ((ds.map (fun d => cnt d g)).sum) ≤ ds.length :=
            sum_map_le_length _ ds hcle
          by_cases hfd : (scanDeps g ds).1 = ds.length
          · rw [if_pos hfd]
            have hone : ∀ d ∈ ds, cnt d g = 1 := by
              refine sum_map_eq_length _ ds hcle ?_
              rw [← scanDeps_found_eq, hfd]
            have hdle : (scanDeps g ds).2 + 1 ≤ g.length := scanDeps_deepest_lt g hg ds
            have hw : ∀ d ∈ ds, ∃ k, k < g.length ∧ k ≤ (scanDeps g ds).2 ∧
                ∃ u ∈ TaskGraph.tasks_at g k,
                  TaskIdentifier.task_hash d = TaskIdentifier.task_hash u.identifier := by
              intro d hd
              obtain ⟨k, hk1, hk2, hk3⟩ := scanDeps_witness g ds d hd (by rw [hone d hd]; omega)
              exact ⟨k, hk1, hk2, hk3⟩
            have hinv1 : LayerInv (TaskGraph.insert_at g t ((scanDeps g ds).2 + 1)) :=
              LayerInv_insert g t ((scanDeps g ds).2) hdle hinv ds hdep hw
            have hnd1 : HashesNodup
                ((TaskGraph.insert_at g t ((scanDeps g ds).2 + 1)).flatten ++
                  ts.eraseIdx (ts.length - (n + 1))) :=
              HashesNodup_of_perm (step_perm ts g t _ _ hget) hnd
            have hg1 : TaskGraph.insert_at g t ((scanDeps g ds).2 + 1) ≠ [] :=
              insert_at_ne_nil g t ((scanDeps g ds).2 + 1)
            cases n with
            | zero =>
              dsimp only
              exact ⟨rfl, hinv1⟩
            | succ m =>
              dsimp only
              exact ih m (by omega) (ts.eraseIdx (ts.length - (m + 1 + 1)))
                (TaskGraph.insert_at g t ((scanDeps g ds).2 + 1)) true hnd1 hg1 hinv1
          · rw [if_neg hfd]
            by_cases hgt : (scanDeps g ds).1 > ds.length
            · exfalso
              rw [scanDeps_found_eq] at hgt
              omega
            · rw [if_neg hgt]
              exact ih n (by omega) ts g r hnd hg hinv

theorem forPassAux_reset_mono {V : Type} :
    ∀ (n : Nat) (ts : List (Task V)) (g : Layers V),
      (forPassAux n ts g true).2.2.1 = true := by
  intro n
  induction n using Nat.strong_induction_on with
  | _ n ih =>
    match n with
    | 0 => intro ts g; rfl
    | n + 1 =>
      intro ts g
      rw [forPassAux]
      cases hget : List.get? ts (ts.length - (n + 1)) with
      | none => rfl
      | some t =>
        dsimp only
        cases hdep : t.dependencies with
        | none =>
          dsimp only
          exact ih n (by omega) ts g
        | some ds =>
          dsimp only
          by_cases hfd : (scanDeps g ds).1 = ds.length
          · rw [if_pos hfd]
            cases n with
            | zero => rfl
            | succ m =>
              dsimp only
              exact ih m (by omega) _ _
          · rw [if_neg hfd]
            by_cases hgt : (scanDeps g ds).1 > ds.length
            · rw [if_pos hgt]
            · rw [if_neg hgt]
              exact ih n (by omega) ts g

theorem forPassAux_advance {V : Type} :
    ∀ (n : Nat) (ts : List (Task V)) (g : Layers V) (r : Bool),
      HashesNodup (g.flatten ++ ts) → g ≠ [] →
      (∃ j t', ts.length - n ≤ j ∧ List.get? ts j = some t' ∧ Placeable t' g) →
      (forPassAux n ts g r).2.2.1 = true := by
  intro n
  induction n using Nat.strong_induction_on with
  | _ n ih =>
    match n with
    | 0 =>
      intro ts g r _ _ hwit
      obtain ⟨j, t', hj, hget', _⟩ := hwit
      exfalso
      have hjlen : j < ts.length := (List.get?_eq_some.1 hget').1
      omega
    | n + 1 =>
      intro ts g r hnd hg hwit
      obtain ⟨j, t', hj, hget', hpl⟩ := hwit
      have hjlen : j < ts.length := (List.get?_eq_some.1 hget').1
      rw [forPassAux]
      cases hget : List.get? ts (ts.length - (n + 1)) with
      | none =>
        exfalso
        have : ts.length ≤ ts.length - (n + 1) := List.get?_eq_none.1 hget
        omega
      | some t =>
        dsimp only
        have hflat_nd : (g.flatten.map (fun u => TaskIdentifier.task_hash u.identifier)).Nodup := by
          unfold HashesNodup at hnd
          rw [List.map_append] at hnd
          exact hnd.of_append_left
        cases hdep : t.dependencies with
        | none =>
          dsimp only
          refine ih n (by omega) ts g r hnd hg ⟨j, t', ?_, hget', hpl⟩
          by_cases hji : j = ts.length - (n + 1)
          · exfalso
            rw [hji, hget] at hget'
            have ht' : t' = t := by injection hget' with h; exact h.symm
            obtain ⟨ds', hds', _⟩ := hpl
            rw [ht', hdep] at hds'
            exact Option.noConfusion hds'
          · omega
        | some ds =>
          dsimp only
          by_cases hfd : (scanDeps g ds).1 = ds.length
          · rw [if_pos hfd]
            cases n with
            | zero => rfl
            | succ m =>
              dsimp only
              exact forPassAux_reset_mono m _ _
          · rw [if_neg hfd]
            by_cases hgt : (scanDeps g ds).1 > ds.length
            · exfalso
              rw [scanDeps_found_eq] at hgt
              have := sum_map_le_length (fun d => cnt d g) ds
                (fun d _ => cnt_le_one hflat_nd d)
              omega
            · rw [if_neg hgt]
              refine ih n (by omega) ts g r hnd hg ⟨j, t', ?_, hget', hpl⟩
              by_cases hji : j = ts.length - (n + 1)
              · exfalso
                rw [hji, hget] at hget'
                have ht' : t' = t := by injection hget' with h; exact h.symm
                obtain ⟨ds', hds', hcnt⟩ := hpl
                rw [ht', hdep] at hds'
                have hds'' : ds' = ds := by injection hds' with h; exact h.symm
                subst hds''
                have hone : ∀ d ∈ ds', cnt d g = 1 := by
                  intro d hd
                  have h1 := hcnt d hd
                  have h2 := cnt_le_one hflat_nd d
                  omega
                have hsum : ((ds'.map (fun d => cnt d g)).sum) = ds'.length := by
                  have : ds'.map (fun d => cnt d g) = ds'.map (fun _ => 1) := by
                    exact List.map_congr_left hone
                  rw [this]
                  simp [List.map_const]
                rw [scanDeps_found_eq, hsum] at hfd
                exact hfd rfl
              · omega

theorem drop_sublist_of_le {α : Type} (l : List α) (m k : Nat) (h : m ≤ k) :
    (l.drop k).Sublist (l.drop m) := by
  have : l.drop k = (l.drop m).drop (k - m) := by
    rw [List.drop_drop]
    congr 1
    omega
  rw [this]
  exact List.drop_sublist ..

theorem forPassAux_layer_ext {V : Type} :
    ∀ (n : Nat) (ts : List (Task V)) (g : Layers V) (r : Bool), g ≠ [] →
      ∀ k, ∃ ex, TaskGraph.tasks_at (forPassAux n ts g r).2.1 k =
          TaskGraph.tasks_at g k ++ ex ∧
        ex.Sublist (ts.drop (ts.length - n)) := by
  intro n
  induction n using Nat.strong_induction_on with
  | _ n ih =>
    match n with
    | 0 => intro ts g r _ k; exact ⟨[], by simp [forPassAux], List.nil_sublist _⟩
    | n + 1 =>
      intro ts g r hg k
      rw [forPassAux]
      cases hget : List.get? ts (ts.length - (n + 1)) with
      | none => dsimp only; exact ⟨[], by simp, List.nil_sublist _⟩
      | some t =>
        dsimp only
        have hi : ts.length - (n + 1) < ts.length := (List.get?_eq_some.1 hget).1
        have hdropc : ts.drop (ts.length - (n + 1)) =
            t :: ts.drop (ts.length - (n + 1) + 1) := by
          have h1 := List.drop_eq_getElem_cons hi
          have h2 : ts.get ⟨ts.length - (n + 1), hi⟩ = t := by
            have := (List.get?_eq_some.1 hget).2
            simpa [List.get_eq_getElem] using this
          rw [← h2, List.get_eq_getElem]
          exact h1
        cases hdep : t.dependencies with
        | none =>
          dsimp only
          obtain ⟨ex, hex1, hex2⟩ := ih n (by omega) ts g r hg k
          refine ⟨ex, hex1, hex2.trans (drop_sublist_of_le ts _ _ (by omega))⟩
        | some ds =>
          dsimp only
          by_cases hfd : (scanDeps g ds).1 = ds.length
          · rw [if_pos hfd]
            have hdle : (scanDeps g ds).2 + 1 ≤ g.length := scanDeps_deepest_lt g hg ds
            cases n with
            | zero =>
              dsimp only
              by_cases hk : k = (scanDeps g ds).2 + 1
              · subst hk
                refine ⟨[t], tasks_at_insert_at_self g t _ hdle, ?_⟩
                rw [hdropc]
                exact List.singleton_sublist.2 (List.mem_cons_self _ _)
              · exact ⟨[], by rw [tasks_at_insert_at_ne g t _ k hk hdle]; simp,
                  List.nil_sublist _⟩
            | succ m =>
              dsimp only
              have hg1 : TaskGraph.insert_at g t ((scanDeps g ds).2 + 1) ≠ [] :=
                insert_at_ne_nil g t ((scanDeps g ds).2 + 1)
              obtain ⟨ex, hex1, hex2⟩ := ih m (by omega)
                (ts.eraseIdx (ts.length - (m + 1 + 1)))
                (TaskGraph.insert_at g t ((scanDeps g ds).2 + 1)) true hg1 k
              have hlen_erase : (ts.eraseIdx (ts.length - (m + 1 + 1))).length =
                  ts.length - 1 := List.length_eraseIdx_of_lt hi
              have htl : (ts.take (ts.length - (m + 1 + 1))).length =
                  ts.length - (m + 1 + 1) := by
                rw [List.length_take]; omega
              have herasedrop : (ts.eraseIdx (ts.length - (m + 1 + 1))).drop
                  (ts.length - (m + 1 + 1)) = ts.drop (ts.length - (m + 1 + 1) + 1) := by
                rw [List.eraseIdx_eq_take_drop_succ]
                exact List.drop_left' htl
              have hstep : ((ts.eraseIdx (ts.length - (m + 1 + 1))).drop
                  ((ts.eraseIdx (ts.length - (m + 1 + 1))).length - m)).Sublist
                  (ts.drop (ts.length - (m + 1 + 1) + 1)) := by
                rw [← herasedrop]
                exact drop_sublist_of_le _ _ _ (by omega)
              have hex_drop1 : ex.Sublist (ts.drop (ts.length - (m + 1 + 1) + 1)) :=
                hex2.trans hstep
              by_cases hk : k = (scanDeps g ds).2 + 1
              · subst hk
                rw [tasks_at_insert_at_self g t _ hdle] at hex1
                refine ⟨t :: ex, by rw [hex1, List.append_assoc]; rfl, ?_⟩
                rw [hdropc]
                exact List.Sublist.cons₂ t hex_drop1
              · rw [tasks_at_insert_at_ne g t _ k hk hdle] at hex1
                refine ⟨ex, hex1, ?_⟩
                exact hex_drop1.trans (drop_sublist_of_le ts _ _ (by omega))
          · rw [if_neg hfd]
            by_cases hgt : (scanDeps g ds).1 > ds.length
            · rw [if_pos hgt]
              exact ⟨[], by simp, List.nil_sublist _⟩
            · rw [if_neg hgt]
              obtain ⟨ex, hex1, hex2⟩ := ih n (by omega) ts g r hg k
              refine ⟨ex, hex1, hex2.trans (drop_sublist_of_le ts _ _ (by omega))⟩

-- ---------------------------------------------------------------------------
-- the layering loop (task.py lines 191-216)
-- ---------------------------------------------------------------------------

theorem buildExit_ok {V : Type} (g : Layers V) (ts : List (Task V)) (p : Nat)
    (g' : Layers V) (fin : List (Task V)) (h : buildExit g ts p = (.ok g', fin)) :
    ts = [] ∧ fin = ts ∧ g' = g := by
  rw [buildExit] at h
  by_cases hc : p > 1 ∨ 0 < ts.length
  · rw [if_pos hc] at h
    exact absurd (congrArg Prod.fst h) (by simp)
  · rw [if_neg hc] at h
    push_neg at hc
    have hts : ts = [] := List.length_eq_zero.1 (by omega)
    have hfin : fin = ts := by
      have := congrArg Prod.snd h
      exact this.symm
    have hg : g' = g := by
      have h1 := congrArg Prod.fst h
      simp only at h1
      injection h1 with h2
      exact h2.symm
    exact ⟨hts, hfin, hg⟩

theorem buildAux_ok_final_nil {V : Type} :
    ∀ (fuel : Nat) (ts : List (Task V)) (g : Layers V) (p : Nat) (g' : Layers V)
      (fin : List (Task V)), buildAux fuel ts g p = (.ok g', fin) → fin = [] := by
  intro fuel
  induction fuel with
  | zero =>
    intro ts g p g' fin h
    obtain ⟨h1, h2, _⟩ := buildExit_ok g ts p g' fin h
    rw [h2, h1]
  | succ fuel ih =>
    intro ts g p g' fin h
    rw [buildAux] at h
    by_cases hc : 0 < ts.length ∧ p < 2
    · rw [if_pos hc] at h
      cases hfp : forPass ts g with
      | mk ts1 rest =>
        obtain ⟨g1, reset, e⟩ := rest
        rw [hfp] at h
        cases e with
        | some err =>
          dsimp only at h
          have h1 := congrArg Prod.fst h
          simp only at h1
          exact absurd h1 (by simp)
        | none =>
          dsimp only at h
          exact ih ts1 g1 _ g' fin h
    · rw [if_neg hc] at h
      obtain ⟨h1, h2, _⟩ := buildExit_ok g ts p g' fin h
      rw [h2, h1]

theorem mem_flatten_layer {V : Type} (u : Task V) :
    ∀ (g : Layers V), u ∈ g.flatten ↔ ∃ k, k < g.length ∧ u ∈ TaskGraph.tasks_at g k := by
  intro g
  induction g with
  | nil => simp [TaskGraph.tasks_at]
  | cons layer rest ih =>
    rw [List.flatten_cons]
    constructor
    · intro hm
      cases List.mem_append.1 hm with
      | inl h0 => exact ⟨0, by simp, h0⟩
      | inr hr =>
        obtain ⟨k, hk, hmem⟩ := ih.1 hr
        exact ⟨k + 1, by simpa using hk, hmem⟩
    · rintro ⟨k, hk, hmem⟩
      cases k with
      | zero => exact List.mem_append_left _ hmem
      | succ k =>
        refine List.mem_append_right _ (ih.2 ⟨k, by simpa using hk, hmem⟩)

theorem countP_layer_le {V : Type} (p : Task V → Bool) :
    ∀ (g : Layers V) (j : Nat), j < g.length →
      List.countP p (TaskGraph.tasks_at g j) ≤ List.countP p g.flatten := by
  intro g
  induction g with
  | nil => intro j hj; simp at hj
  | cons layer rest ih =>
    intro j hj
    rw [List.flatten_cons, List.countP_append]
    cases j with
    | zero =>
      rw [show TaskGraph.tasks_at (layer :: rest) 0 = layer from rfl]
      omega
    | succ j =>
      have := ih j (by simpa using hj)
      rw [show TaskGraph.tasks_at (layer :: rest) (j + 1) = TaskGraph.tasks_at rest j from rfl]
      omega

theorem countP_two_layers_le {V : Type} (p : Task V → Bool) :
    ∀ (g : Layers V) (j k : Nat), j < k → k < g.length →
      List.countP p (TaskGraph.tasks_at g j) + List.countP p (TaskGraph.tasks_at g k) ≤
        List.countP p g.flatten := by
  intro g
  induction g with
  | nil => intro j k _ hk; simp at hk
  | cons layer rest ih =>
    intro j k hjk hk
    rw [List.flatten_cons, List.countP_append]
    cases j with
    | zero =>
      rw [show TaskGraph.tasks_at (layer :: rest) 0 = layer from rfl]
      cases k with
      | zero => omega
      | succ k =>
        rw [show TaskGraph.tasks_at (layer :: rest) (k + 1) = TaskGraph.tasks_at rest k from rfl]
        have := countP_layer_le p rest k (by simpa using hk)
        omega
    | succ j =>
      cases k with
      | zero => omega
      | succ k =>
        rw [show TaskGraph.tasks_at (layer :: rest) (j + 1) = TaskGraph.tasks_at rest j from rfl,
          show TaskGraph.tasks_at (layer :: rest) (k + 1) = TaskGraph.tasks_at rest k from rfl]
        have := ih j k (by omega) (by simpa using hk)
        omega

theorem buildAux_layer0 {V : Type} :
    ∀ (fuel : Nat) (ts : List (Task V)) (g : Layers V) (p : Nat) (g' : Layers V)
      (fin : List (Task V)), buildAux fuel ts g p = (.ok g', fin) → g ≠ [] →
      TaskGraph.tasks_at g' 0 = TaskGraph.tasks_at g 0 ∧ g' ≠ [] := by
  intro fuel
  induction fuel with
  | zero =>
    intro ts g p g' fin h hg
    obtain ⟨_, _, h3⟩ := buildExit_ok g ts p g' fin h
    rw [h3]
    exact ⟨rfl, hg⟩
  | succ fuel ih =>
    intro ts g p g' fin h hg
    rw [buildAux] at h
    by_cases hc : 0 < ts.length ∧ p < 2
    · rw [if_pos hc] at h
      have hl0 := forPassAux_layer0 ts.length ts g false hg
      cases hfp : forPass ts g with
      | mk ts1 rest =>
        obtain ⟨g1, reset, e⟩ := rest
        rw [← forPass, hfp] at hl0
        rw [hfp] at h
        cases e with
        | some err =>
          dsimp only at h
          have h1 := congrArg Prod.fst h
          simp only at h1
          exact absurd h1 (by simp)
        | none =>
          dsimp only at h
          obtain ⟨ha, hb⟩ := ih ts1 g1 _ g' fin h hl0.1
          exact ⟨ha.trans hl0.2, hb⟩
    · rw [if_neg hc] at h
      obtain ⟨_, _, h3⟩ := buildExit_ok g ts p g' fin h
      rw [h3]
      exact ⟨rfl, hg⟩

theorem buildAux_sound {V : Type} :
    ∀ (fuel : Nat) (ts : List (Task V)) (g : Layers V) (p : Nat) (g' : Layers V)
      (fin : List (Task V)), buildAux fuel ts g p = (.ok g', fin) →
      HashesNodup (g.flatten ++ ts) → g ≠ [] → LayerInv g →
      LayerInv g' ∧ g'.flatten.Perm (g.flatten ++ ts) := by
  intro fuel
  induction fuel with
  | zero =>
    intro ts g p g' fin h hnd hg hinv
    obtain ⟨h1, _, h3⟩ := buildExit_ok g ts p g' fin h
    subst h1
    rw [h3]
    exact ⟨hinv, by simp⟩
  | succ fuel ih =>
    intro ts g p g' fin h hnd hg hinv
    rw [buildAux] at h
    by_cases hc : 0 < ts.length ∧ p < 2
    · rw [if_pos hc] at h
      have hne := forPassAux_no_error_inv ts.length ts g false hnd hg hinv
      have hsp := forPassAux_sublist_perm ts.length ts g false
      have hl0 := forPassAux_layer0 ts.length ts g false hg
      cases hfp : forPass ts g with
      | mk ts1 rest =>
        obtain ⟨g1, reset, e⟩ := rest
        rw [← forPass, hfp] at hne
        rw [← forPass, hfp] at hsp
        rw [← forPass, hfp] at hl0
        rw [hfp] at h
        cases e with
        | some err =>
          exact absurd hne.1 (by simp)
        | none =>
          dsimp only at h hne hsp hl0
          have hnd1 : HashesNodup (g1.flatten ++ ts1) := HashesNodup_of_perm hsp.2 hnd
          obtain ⟨ha, hb⟩ := ih ts1 g1 _ g' fin h hnd1 hl0.1 hne.2
          exact ⟨ha, hb.trans hsp.2⟩
    · rw [if_neg hc] at h
      obtain ⟨h1, _, h3⟩ := buildExit_ok g ts p g' fin h
      subst h1
      rw [h3]
      exact ⟨hinv, by simp⟩

theorem buildAux_error_circ {V : Type} :
    ∀ (fuel : Nat) (ts : List (Task V)) (g : Layers V) (p : Nat),
      HashesNodup (g.flatten ++ ts) → g ≠ [] → LayerInv g →
      (buildAux fuel ts g p).1.isOk = true ∨
      (buildAux fuel ts g p).1 =
        .error ⟨.FAIL, "<TaskGraph circular or missing dependency>"⟩ := by
  intro fuel
  induction fuel with
  | zero =>
    intro ts g p hnd hg hinv
    rw [buildAux, buildExit]
    by_cases hc : p > 1 ∨ 0 < ts.length
    · rw [if_pos hc]; right; rfl
    · rw [if_neg hc]; left; rfl
  | succ fuel ih =>
    intro ts g p hnd hg hinv
    rw [buildAux]
    by_cases hc : 0 < ts.length ∧ p < 2
    · rw [if_pos hc]
      have hne := forPassAux_no_error_inv ts.length ts g false hnd hg hinv
      have hsp := forPassAux_sublist_perm ts.length ts g false
      have hl0 := forPassAux_layer0 ts.length ts g false hg
      cases hfp : forPass ts g with
      | mk ts1 rest =>
        obtain ⟨g1, reset, e⟩ := rest
        rw [← forPass, hfp] at hne
        rw [← forPass, hfp] at hsp
        rw [← forPass, hfp] at hl0
        cases e with
        | some err =>
          exact absurd hne.1 (by simp)
        | none =>
          dsimp only at hne hsp hl0 ⊢
          have hnd1 : HashesNodup (g1.flatten ++ ts1) := HashesNodup_of_perm hsp.2 hnd
          exact ih ts1 g1 _ hnd1 hl0.1 hne.2
    · rw [if_neg hc]
      rw [buildExit]
      by_cases hc2 : p > 1 ∨ 0 < ts.length
      · rw [if_pos hc2]; right; rfl
      · rw [if_neg hc2]; left; rfl

theorem exists_min_rank {α : Type} (f : α → Nat) :
    ∀ (l : List α), l ≠ [] → ∃ a ∈ l, ∀ b ∈ l, f a ≤ f b := by
  intro l
  induction l with
  | nil => intro h; exact absurd rfl h
  | cons x rest ih =>
    intro _
    cases hrest : rest with
    | nil => exact ⟨x, List.mem_cons_self _ _, by intro b hb; simp at hb; rw [hb]⟩
    | cons y rest' =>
      obtain ⟨a, ha, hmin⟩ := ih (by rw [hrest]; simp)
      rw [← hrest] at *
      by_cases hc : f x ≤ f a
      · refine ⟨x, List.mem_cons_self _ _, ?_⟩
        intro b hb
        cases List.mem_cons.1 hb with
        | inl h => rw [h]
        | inr h => exact Nat.le_trans hc (hmin b h)
      · refine ⟨a, List.mem_cons_of_mem _ ha, ?_⟩
        intro b hb
        cases List.mem_cons.1 hb with
        | inl h => rw [h]; omega
        | inr h => exact hmin b h

theorem buildAux_complete {V : Type} :
    ∀ (fuel : Nat) (ts : List (Task V)) (g : Layers V) (rank : Nat → Nat),
      ts.length ≤ fuel →
      HashesNodup (g.flatten ++ ts) → g ≠ [] → LayerInv g →
      (∀ t ∈ ts, t.dependencies ≠ none) →
      (∀ t ∈ ts, ∀ ds, t.dependencies = some ds → ∀ d ∈ ds,
        ∃ u ∈ g.flatten ++ ts,
          TaskIdentifier.task_hash u.identifier = TaskIdentifier.task_hash d) →
      (∀ t ∈ ts, ∀ ds, t.dependencies = some ds → ∀ d ∈ ds,
        rank (TaskIdentifier.task_hash d) < rank (TaskIdentifier.task_hash t.identifier)) →
      (buildAux fuel ts g 0).1.isOk = true := by
  intro fuel
  induction fuel with
  | zero =>
    intro ts g rank hfuel _ _ _ _ _ _
    have hts : ts = [] := List.length_eq_zero.1 (by omega)
    subst hts
    rw [buildAux, buildExit]
    rw [if_neg (by simp)]
    rfl
  | succ fuel ih =>
    intro ts g rank hfuel hnd hg hinv hdeps hprod hrank
    by_cases hts : ts = []
    · subst hts
      rw [buildAux]
      rw [if_neg (by simp)]
      rw [buildExit, if_neg (by simp)]
      rfl
    · rw [buildAux]
      rw [if_pos ⟨List.length_pos.2 hts, by omega⟩]
      -- a task of minimal rank among the remaining ones is placeable
      obtain ⟨tmin, htmem, htmin⟩ :=
        exists_min_rank (fun t => rank (TaskIdentifier.task_hash t.identifier)) ts hts
      cases hds : tmin.dependencies with
      | none => exact absurd hds (hdeps tmin htmem)
      | some ds =>
        have hplace : Placeable tmin g := by
          refine ⟨ds, hds, ?_⟩
          intro d hd
          obtain ⟨u, humem, huh⟩ := hprod tmin htmem ds hds d hd
          cases List.mem_append.1 humem with
          | inl hflat =>
            rw [cnt]
            refine List.countP_pos_iff.2 ⟨u, hflat, ?_⟩
            simp [huh]
          | inr hts' =>
            exfalso
            have h1 := hrank tmin htmem ds hds d hd
            have h2 := htmin u hts'
            rw [huh] at h2
            omega
        obtain ⟨j, hj⟩ := List.get?_of_mem htmem
        have hreset := forPassAux_advance ts.length ts g false hnd hg
          ⟨j, tmin, by omega, hj, hplace⟩
        have hne := forPassAux_no_error_inv ts.length ts g false hnd hg hinv
        have hsp := forPassAux_sublist_perm ts.length ts g false
        have hl0 := forPassAux_layer0 ts.length ts g false hg
        have hdich := forPassAux_dichotomy ts.length ts g false hne.1
        cases hfp : forPass ts g with
        | mk ts1 rest =>
          obtain ⟨g1, reset, e⟩ := rest
          rw [← forPass, hfp] at hreset hsp hl0 hdich
          rw [← forPass, hfp] at hne
          cases e with
          | some err => exact absurd hne.1 (by simp)
          | none =>
            dsimp only at hreset hne hsp hl0 hdich ⊢
            have hreset' : reset = true := hreset
            subst hreset'
            have hlt : ts1.length < ts.length := by
              cases hdich with
              | inl hsame =>
                exfalso
                have := congrArg (fun x => x.2.2.1) hsame
                simp at this
              | inr h => exact h.2
            have hnd1 : HashesNodup (g1.flatten ++ ts1) := HashesNodup_of_perm hsp.2 hnd
            have hsub : ∀ t ∈ ts1, t ∈ ts := fun t ht => hsp.1.subset ht
            refine ih ts1 g1 rank (by omega) hnd1 hl0.1 hne.2 ?_ ?_ ?_
            · exact fun t ht => hdeps t (hsub t ht)
            · intro t ht ds' hds' d hd
              obtain ⟨u, humem, huh⟩ := hprod t (hsub t ht) ds' hds' d hd
              exact ⟨u, (hsp.2.mem_iff).2 humem, huh⟩
            · exact fun t ht ds' hds' d hd => hrank t (hsub t ht) ds' hds' d hd

-- ---------------------------------------------------------------------------
-- from_tasks assembly facts
-- ---------------------------------------------------------------------------

theorem from_tasks_eq {V : Type} (tasks : List (Task V)) :
    TaskGraph.from_tasks tasks =
      (if (rootsOf tasks).length = 0 then
        (.error ⟨.FAIL, "<TaskGraph: no root nodes>"⟩, nonRootsOf tasks)
       else buildAux (3 * (nonRootsOf tasks).length + 3) (nonRootsOf tasks) [rootsOf tasks] 0) := by
  rw [TaskGraph.from_tasks]
  rw [seed_spec]

theorem roots_perm {V : Type} (tasks : List (Task V)) :
    (rootsOf tasks ++ nonRootsOf tasks).Perm tasks := by
  rw [rootsOf, nonRootsOf]
  have hpred : (fun t : Task V => decide (¬ t.dependencies = none)) =
      (fun t : Task V => ! decide (t.dependencies = none)) := by
    funext t
    by_cases h : t.dependencies = none <;> simp [h]
  rw [hpred]
  exact List.filter_append_perm _ tasks

theorem roots_empty_iff {V : Type} (tasks : List (Task V)) :
    rootsOf tasks = [] ↔ ¬ ∃ t ∈ tasks, t.dependencies = none := by
  rw [rootsOf, List.filter_eq_nil_iff]
  constructor
  · rintro h ⟨t, ht, hdep⟩
    exact absurd (by simpa using hdep) (by simpa using h t ht)
  · intro h t ht
    simp only [decide_eq_true_eq]
    intro hdep
    exact h ⟨t, ht, hdep⟩

theorem LayerInv_roots {V : Type} (tasks : List (Task V)) :
    LayerInv [rootsOf tasks] := by
  intro dIdx hlen t ht ds hds d _
  exfalso
  have hd0 : dIdx = 0 := by simpa using hlen
  subst hd0
  have hmem : t ∈ rootsOf tasks := ht
  rw [rootsOf, List.mem_filter] at hmem
  have hnone : t.dependencies = none := by simpa using hmem.2
  rw [hnone] at hds
  exact Option.noConfusion hds

theorem findIdx_le_of_getElem {α : Type} (p : α → Bool) :
    ∀ (l : List α) (k : Nat) (hk : k < l.length), p (l.get ⟨k, hk⟩) = true →
      l.findIdx p ≤ k := by
  intro l
  induction l with
  | nil => intro k hk; simp at hk
  | cons a rest ih =>
    intro k hk hp
    rw [List.findIdx_cons]
    cases hpa : p a with
    | true => simp
    | false =>
      cases k with
      | zero =>
        rw [show (a :: rest).get ⟨0, hk⟩ = a from rfl] at hp
        rw [hp] at hpa
        exact Bool.noConfusion hpa
      | succ k =>
        simp only [cond_false]
        have := ih k (by simpa using hk) (by simpa using hp)
        omega

theorem tasks_at_lt {V : Type} (g : Layers V) (k : Nat) (hk : k < g.length) :
    TaskGraph.tasks_at g k = g.get ⟨k, hk⟩ := by
  rw [TaskGraph.tasks_at, List.getD_eq_getElem?_getD, List.getElem?_eq_getElem hk,
    List.get_eq_getElem]
  rfl

theorem from_tasks_ok_basic {V : Type} (tasks : List (Task V)) (g' : Layers V)
    (hok : (TaskGraph.from_tasks tasks).1 = .ok g') :
    TaskGraph.tasks_at g' 0 = rootsOf tasks ∧ g' ≠ [] ∧
    (TaskGraph.from_tasks tasks).2 = [] := by
  rw [from_tasks_eq] at hok ⊢
  by_cases hr : (rootsOf tasks).length = 0
  · rw [if_pos hr] at hok
    exact absurd hok (by simp)
  · rw [if_neg hr] at hok ⊢
    have hb : buildAux (3 * (nonRootsOf tasks).length + 3) (nonRootsOf tasks)
        [rootsOf tasks] 0 =
        (.ok g', (buildAux (3 * (nonRootsOf tasks).length + 3) (nonRootsOf tasks)
          [rootsOf tasks] 0).2) := by
      rw [← hok]
    obtain ⟨h1, h2⟩ := buildAux_layer0 _ _ _ _ _ _ hb (by simp)
    refine ⟨?_, h2, buildAux_ok_final_nil _ _ _ _ _ _ hb⟩
    rw [h1]
    rfl

theorem from_tasks_ok_nodup {V : Type} (tasks : List (Task V)) (hnd : HashesNodup tasks)
    (g' : Layers V) (hok : (TaskGraph.from_tasks tasks).1 = .ok g') :
    LayerInv g' ∧ g'.flatten.Perm tasks := by
  rw [from_tasks_eq] at hok
  by_cases hr : (rootsOf tasks).length = 0
  · rw [if_pos hr] at hok
    exact absurd hok (by simp)
  · rw [if_neg hr] at hok
    have hb : buildAux (3 * (nonRootsOf tasks).length + 3) (nonRootsOf tasks)
        [rootsOf tasks] 0 =
        (.ok g', (buildAux (3 * (nonRootsOf tasks).length + 3) (nonRootsOf tasks)
          [rootsOf tasks] 0).2) := by
      rw [← hok]
    have hnd0 : HashesNodup (([rootsOf tasks] : Layers V).flatten ++ nonRootsOf tasks) := by
      rw [show ([rootsOf tasks] : Layers V).flatten = rootsOf tasks ++ [] by rfl,
        List.append_nil]
      exact HashesNodup_of_perm (roots_perm tasks) hnd
    obtain ⟨h1, h2⟩ := buildAux_sound _ _ _ _ _ _ hb hnd0 (by simp) (LayerInv_roots tasks)
    refine ⟨h1, h2.trans ?_⟩
    rw [show ([rootsOf tasks] : Layers V).flatten = rootsOf tasks ++ [] by rfl,
      List.append_nil]
    exact roots_perm tasks

theorem from_tasks_producers {V : Type} (tasks : List (Task V)) (hnd : HashesNodup tasks)
    (g' : Layers V) (hok : (TaskGraph.from_tasks tasks).1 = .ok g') :
    ProducersPresent tasks := by
  obtain ⟨hinv, hperm⟩ := from_tasks_ok_nodup tasks hnd g' hok
  intro t ht ds hds d hd
  obtain ⟨dIdx, hlt, hmem⟩ := (mem_flatten_layer t g').1 ((hperm.mem_iff).2 ht)
  obtain ⟨dep1, hdep1lt, u, humem, huh⟩ := hinv dIdx hlt t hmem ds hds d hd
  have hu_flat : u ∈ g'.flatten := (mem_flatten_layer u g').2 ⟨dep1, by omega, humem⟩
  exact ⟨u, (hperm.mem_iff).1 hu_flat, huh⟩

theorem from_tasks_acyclic {V : Type} (tasks : List (Task V)) (hnd : HashesNodup tasks)
    (g' : Layers V) (hok : (TaskGraph.from_tasks tasks).1 = .ok g') :
    DagAcyclic tasks := by
  obtain ⟨hinv, hperm⟩ := from_tasks_ok_nodup tasks hnd g' hok
  have hflat_nd : (g'.flatten.map (fun u => TaskIdentifier.task_hash u.identifier)).Nodup :=
    HashesNodup_of_perm hperm hnd
  refine ⟨fun v => g'.findIdx
    (fun layer => layer.any (fun u => TaskIdentifier.task_hash u.identifier == v)), ?_⟩
  intro t ht ds hds d hd
  obtain ⟨dIdx, hlt, hmem⟩ := (mem_flatten_layer t g').1 ((hperm.mem_iff).2 ht)
  obtain ⟨dep1, hdep1lt, u, humem, huh⟩ := hinv dIdx hlt t hmem ds hds d hd
  have hdep1len : dep1 < g'.length := by omega
  have h1 : g'.findIdx
      (fun layer => layer.any
        (fun u => TaskIdentifier.task_hash u.identifier == TaskIdentifier.task_hash d)) ≤
      dep1 := by
    refine findIdx_le_of_getElem _ g' dep1 hdep1len ?_
    rw [← tasks_at_lt g' dep1 hdep1len]
    refine List.any_eq_true.2 ⟨u, humem, ?_⟩
    exact beq_iff_eq.2 huh
  have h2 : dIdx ≤ g'.findIdx
      (fun layer => layer.any
        (fun u => TaskIdentifier.task_hash u.identifier ==
          TaskIdentifier.task_hash t.identifier)) := by
    by_contra hcon
    push_neg at hcon
    have hfl : g'.findIdx
        (fun layer => layer.any
          (fun u => TaskIdentifier.task_hash u.identifier ==
            TaskIdentifier.task_hash t.identifier)) < g'.length := by omega
    have hmatch := @List.findIdx_getElem _
      (fun layer => layer.any
        (fun u => TaskIdentifier.task_hash u.identifier ==
          TaskIdentifier.task_hash t.identifier)) g' hfl
    obtain ⟨u1, hu1mem, hu1beq⟩ := List.any_eq_true.1 hmatch
    have hu1h : TaskIdentifier.task_hash u1.identifier =
        TaskIdentifier.task_hash t.identifier := beq_iff_eq.1 hu1beq
    have hu1mem' : u1 ∈ TaskGraph.tasks_at g'
        (g'.findIdx
          (fun layer => layer.any
            (fun u => TaskIdentifier.task_hash u.identifier ==
              TaskIdentifier.task_hash t.identifier))) := by
      rw [tasks_at_lt g' _ hfl, List.get_eq_getElem]
      exact hu1mem
    have hc1 : 0 < List.countP
        (fun u => decide (TaskIdentifier.task_hash t.identifier =
          TaskIdentifier.task_hash u.identifier))
        (TaskGraph.tasks_at g'
          (g'.findIdx
            (fun layer => layer.any
              (fun u => TaskIdentifier.task_hash u.identifier ==
                TaskIdentifier.task_hash t.identifier)))) := by
      refine List.countP_pos_iff.2 ⟨u1, hu1mem', ?_⟩
      simp [hu1h]
    have hc2 : 0 < List.countP
        (fun u => decide (TaskIdentifier.task_hash t.identifier =
          TaskIdentifier.task_hash u.identifier))
        (TaskGraph.tasks_at g' dIdx) := by
      refine List.countP_pos_iff.2 ⟨t, hmem, ?_⟩
      simp
    have htwo := countP_two_layers_le
      (fun u => decide (TaskIdentifier.task_hash t.identifier =
        TaskIdentifier.task_hash u.identifier)) g' _ dIdx hcon hlt
    have hone := countP_map_nodup_le_one
      (fun u => TaskIdentifier.task_hash u.identifier) g'.flatten hflat_nd
      (TaskIdentifier.task_hash t.identifier)
    omega
  beta_reduce
  omega

theorem from_tasks_complete {V : Type} (tasks : List (Task V)) (hnd : HashesNodup tasks)
    (hroot : ∃ t ∈ tasks, t.dependencies = none) (hprod : ProducersPresent tasks)
    (hacyc : DagAcyclic tasks) : (TaskGraph.from_tasks tasks).1.isOk = true := by
  rw [from_tasks_eq]
  have hr : rootsOf tasks ≠ [] := fun h => (roots_empty_iff tasks).1 h hroot
  rw [if_neg (fun h => hr (List.length_eq_zero.1 h))]
  obtain ⟨rank, hrank⟩ := hacyc
  have hsub : ∀ t ∈ nonRootsOf tasks, t ∈ tasks := by
    intro t ht
    rw [nonRootsOf] at ht
    exact (List.mem_filter.1 ht).1
  have hflat : (([rootsOf tasks] : Layers V).flatten ++ nonRootsOf tasks) =
      rootsOf tasks ++ nonRootsOf tasks := by
    rw [show ([rootsOf tasks] : Layers V).flatten = rootsOf tasks ++ [] from rfl,
      List.append_nil]
  refine buildAux_complete _ _ _ rank (by omega) ?_ (by simp) (LayerInv_roots tasks) ?_ ?_ ?_
  · rw [hflat]
    exact HashesNodup_of_perm (roots_perm tasks) hnd
  · intro t ht
    rw [nonRootsOf] at ht
    have := (List.mem_filter.1 ht).2
    simpa using this
  · intro t ht ds hds d hd
    obtain ⟨u, hu, huh⟩ := hprod t (hsub t ht) ds hds d hd
    refine ⟨u, ?_, huh⟩
    rw [hflat]
    exact ((roots_perm tasks).mem_iff).2 hu
  · intro t ht ds hds d hd
    exact hrank t (hsub t ht) ds hds d hd

theorem from_tasks_err_msgs {V : Type} (tasks : List (Task V)) (hnd : HashesNodup tasks) :
    (rootsOf tasks = [] →
      (TaskGraph.from_tasks tasks).1 = .error ⟨.FAIL, "<TaskGraph: no root nodes>"⟩) ∧
    (rootsOf tasks ≠ [] → (TaskGraph.from_tasks tasks).1.isOk = false →
      (TaskGraph.from_tasks tasks).1 =
        .error ⟨.FAIL, "<TaskGraph circular or missing dependency>"⟩) := by
  constructor
  · intro h
    rw [from_tasks_eq, if_pos (by rw [h]; rfl)]
  · intro hne hnok
    rw [from_tasks_eq, if_neg (fun h => hne (List.length_eq_zero.1 h))] at hnok ⊢
    have hflat : (([rootsOf tasks] : Layers V).flatten ++ nonRootsOf tasks) =
        rootsOf tasks ++ nonRootsOf tasks := by
      rw [show ([rootsOf tasks] : Layers V).flatten = rootsOf tasks ++ [] from rfl,
        List.append_nil]
    have hnd0 : HashesNodup (([rootsOf tasks] : Layers V).flatten ++ nonRootsOf tasks) := by
      rw [hflat]
      exact HashesNodup_of_perm (roots_perm tasks) hnd
    have := buildAux_error_circ (3 * (nonRootsOf tasks).length + 3) (nonRootsOf tasks)
      [rootsOf tasks] 0 hnd0 (by simp) (LayerInv_roots tasks)
    cases this with
    | inl h => rw [h] at hnok; exact Bool.noConfusion hnok
    | inr h => exact h

-- ---------------------------------------------------------------------------
-- Claims about the graph builder
-- ---------------------------------------------------------------------------

/-- C1 (amended): for task lists with pairwise-distinct identifier hashes,
from_tasks returns Ok exactly when some task's dependency attribute is absent
(None) and the dependency relation is acyclic with every declared dependency
having a producer in the list.  A task whose dependency set is present but
empty does not count as a root: the claim as stated fails on such lists (see
the counterexample).  When no task has an absent dependency set the error is
"no root nodes"; any other failure is reported as "circular or missing
dependency". -/
theorem from_tasks_ok_iff {V : Type} (tasks : List (Task V)) (hnd : HashesNodup tasks) :
    ((TaskGraph.from_tasks tasks).1.isOk = true ↔
      ((∃ t ∈ tasks, t.dependencies = none) ∧ ProducersPresent tasks ∧ DagAcyclic tasks)) ∧
    (tasks.filter (fun t => t.dependencies = none) = [] →
      (TaskGraph.from_tasks tasks).1 = .error ⟨.FAIL, "<TaskGraph: no root nodes>"⟩) ∧
    (tasks.filter (fun t => t.dependencies = none) ≠ [] →
      (TaskGraph.from_tasks tasks).1.isOk = false →
      (TaskGraph.from_tasks tasks).1 =
        .error ⟨.FAIL, "<TaskGraph circular or missing dependency>"⟩) := by
  refine ⟨?_, (from_tasks_err_msgs tasks hnd).1, (from_tasks_err_msgs tasks hnd).2⟩
  constructor
  · intro hok
    cases hres : (TaskGraph.from_tasks tasks).1 with
    | error e => rw [hres] at hok; exact Bool.noConfusion hok
    | ok g' =>
      refine ⟨?_, from_tasks_producers tasks hnd g' hres, from_tasks_acyclic tasks hnd g' hres⟩
      by_cases hr : rootsOf tasks = []
      · exfalso
        rw [(from_tasks_err_msgs tasks hnd).1 hr] at hres
        exact Except.noConfusion hres
      · obtain ⟨t, ht⟩ := List.exists_mem_of_ne_nil _ hr
        rw [rootsOf, List.mem_filter] at ht
        exact ⟨t, ht.1, by simpa using ht.2⟩
  · rintro ⟨hroot, hprod, hacyc⟩
    exact from_tasks_complete tasks hnd hroot hprod hacyc

/-- C2 (amended): whenever from_tasks returns Ok on a task list with
pairwise-distinct identifier hashes, the resulting graph satisfies the
layering invariant: every task placed at depth d has each of its
dependencies resolvable (by identifier hash) to a task at a strictly
smaller depth.  Distinctness is necessary: with duplicate identifiers the
invariant can fail on an Ok graph (see the counterexample). -/
theorem from_tasks_layering {V : Type} (tasks : List (Task V)) (hnd : HashesNodup tasks)
    (g' : Layers V) (hok : (TaskGraph.from_tasks tasks).1 = .ok g') : LayerInv g' :=
  (from_tasks_ok_nodup tasks hnd g' hok).1

/-- C5 (amended): depth 0 of a successfully built graph contains exactly the
input tasks whose dependency attribute is absent (None), in input order; a
task with a present-but-empty dependency set is not placed at depth 0 (the
seeding loop tests `dependencies is None`).  If no task has an absent
dependency set, from_tasks returns Err(FAIL, "no root nodes"). -/
theorem from_tasks_depth_zero {V : Type} (tasks : List (Task V)) :
    (∀ g', (TaskGraph.from_tasks tasks).1 = .ok g' →
      TaskGraph.tasks_at g' 0 = tasks.filter (fun t => t.dependencies = none)) ∧
    (tasks.filter (fun t => t.dependencies = none) = [] →
      (TaskGraph.from_tasks tasks).1 = .error ⟨.FAIL, "<TaskGraph: no root nodes>"⟩) := by
  constructor
  · intro g' hok
    exact (from_tasks_ok_basic tasks g' hok).1
  · intro h
    rw [from_tasks_eq, if_pos (by rw [rootsOf, h]; rfl)]

/-- C9: from_tasks destructively consumes the caller's list: whenever it
returns Ok, every task has been removed and the final state of the list is
empty (on Err the list may be left partially drained). -/
theorem from_tasks_consumes_input {V : Type} (tasks : List (Task V)) (g' : Layers V)
    (hok : (TaskGraph.from_tasks tasks).1 = .ok g') :
    (TaskGraph.from_tasks tasks).2 = [] :=
  (from_tasks_ok_basic tasks g' hok).2.2

/-- C7 (amended): a single pass of the layering loop appends to each layer a
subsequence of the remaining task list (so the tasks placed by one pass into
one layer preserve their relative order); because a pass skips the element
that slides into the slot of a just-placed task, a skipped task is placed by
a later pass, and tasks placed into the same layer by different passes need
not preserve input order (see the counterexample). -/
theorem forPass_layer_extension {V : Type} (ts : List (Task V)) (g : Layers V)
    (hg : g ≠ []) (k : Nat) :
    ∃ ex, TaskGraph.tasks_at (forPass ts g).2.1 k = TaskGraph.tasks_at g k ++ ex ∧
      ex.Sublist ts := by
  obtain ⟨ex, h1, h2⟩ := forPassAux_layer_ext ts.length ts g false hg k
  rw [forPass]
  refine ⟨ex, h1, ?_⟩
  simpa using h2

-- ---------------------------------------------------------------------------
-- Concrete counterexamples and witnesses
-- ---------------------------------------------------------------------------

-- restore the default reducibility of the hash so the concrete graphs below
-- can be evaluated outright.
set_option allowUnsafeReducibility true

attribute [semireducible] TaskIdentifier.task_hash

/-- C1 (counterexample to the claim as stated): a one-task list whose task
carries a present-but-empty dependency set has every producer present and an
acyclic (vacuous) dependency relation, yet from_tasks rejects it with
"no root nodes": Ok is not equivalent to acyclicity plus producer presence,
because the seeding loop tests `dependencies is None`, not emptiness. -/
theorem from_tasks_err_on_acyclic_input :
    ProducersPresent [natTask 1 "a" (some [])] ∧
    DagAcyclic [natTask 1 "a" (some [])] ∧
    (TaskGraph.from_tasks [natTask 1 "a" (some [])]).1 =
      .error ⟨.FAIL, "<TaskGraph: no root nodes>"⟩ := by
  refine ⟨?_, ⟨fun _ => 0, ?_⟩, rfl⟩ <;>
  · intro t ht ds hds d hd
    rw [List.mem_singleton] at ht
    subst ht
    simp only [natTask] at hds
    injection hds with h
    subst h
    exact absurd hd (List.not_mem_nil d)

/-- C1 witness: from_tasks_ok_iff at the concrete two-task chain
(1, "a") ← (2, "b"), whose identifier hashes are distinct by evaluation. -/
theorem from_tasks_ok_iff_witness :
    HashesNodup [natTask 1 "a" none, natTask 2 "b" (some [(1, "a")])] ∧
    (((TaskGraph.from_tasks [natTask 1 "a" none,
          natTask 2 "b" (some [(1, "a")])]).1.isOk = true ↔
        ((∃ t ∈ [natTask 1 "a" none, natTask 2 "b" (some [(1, "a")])],
            t.dependencies = none) ∧
          ProducersPresent [natTask 1 "a" none, natTask 2 "b" (some [(1, "a")])] ∧
          DagAcyclic [natTask 1 "a" none, natTask 2 "b" (some [(1, "a")])])) ∧
      ([natTask 1 "a" none, natTask 2 "b" (some [(1, "a")])].filter
          (fun t => t.dependencies = none) = [] →
        (TaskGraph.from_tasks [natTask 1 "a" none,
            natTask 2 "b" (some [(1, "a")])]).1 =
          .error ⟨.FAIL, "<TaskGraph: no root nodes>"⟩) ∧
      ([natTask 1 "a" none, natTask 2 "b" (some [(1, "a")])].filter
          (fun t => t.dependencies = none) ≠ [] →
        (TaskGraph.from_tasks [natTask 1 "a" none,
            natTask 2 "b" (some [(1, "a")])]).1.isOk = false →
        (TaskGraph.from_tasks [natTask 1 "a" none,
            natTask 2 "b" (some [(1, "a")])]).1 =
          .error ⟨.FAIL, "<TaskGraph circular or missing dependency>"⟩)) :=
  ⟨by decide,
   from_tasks_ok_iff [natTask 1 "a" none, natTask 2 "b" (some [(1, "a")])] (by decide)⟩

/-- C2 (counterexample to the claim as stated): with duplicate identifiers
(two root tasks both named (1, "a")), from_tasks returns Ok, but the graph
violates the layering invariant: the task (2, "b") is placed at depth 1 even
though its dependency (3, "c") resolves to no task anywhere in the graph (the
duplicated root is double-counted by the dependency scan, so found equals the
dependency count without every dependency being present). -/
theorem from_tasks_layering_needs_nodup :
    (TaskGraph.from_tasks
        [natTask 1 "a" none, natTask 1 "a" none,
         natTask 2 "b" (some [(1, "a"), (3, "c")])]).1.isOk = true ∧
    ¬ LayerInv (graphOf (TaskGraph.from_tasks
        [natTask 1 "a" none, natTask 1 "a" none,
         natTask 2 "b" (some [(1, "a"), (3, "c")])])) := by
  exact ⟨by decide, by decide⟩

/-- C2 witness: from_tasks_layering at the concrete two-task chain
(3, "r") ← (4, "s"): the Ok graph satisfies the layering invariant. -/
theorem from_tasks_layering_witness :
    HashesNodup [natTask 3 "r" none, natTask 4 "s" (some [(3, "r")])] ∧
    (TaskGraph.from_tasks [natTask 3 "r" none, natTask 4 "s" (some [(3, "r")])]).1 =
      .ok [[natTask 3 "r" none], [natTask 4 "s" (some [(3, "r")])]] ∧
    LayerInv [[natTask 3 "r" none], [natTask 4 "s" (some [(3, "r")])]] :=
  ⟨by decide, rfl,
   from_tasks_layering [natTask 3 "r" none, natTask 4 "s" (some [(3, "r")])]
     (by decide) [[natTask 3 "r" none], [natTask 4 "s" (some [(3, "r")])]] rfl⟩

/-- C5 (counterexample to the claim as stated): the task (2, "b") has an
empty dependency set — it has no dependencies — yet it is placed at depth 1,
not depth 0: the seeding loop tests `dependencies is None`, so "absent" and
"empty" dependency sets are not treated alike. -/
theorem from_tasks_depth_zero_needs_none :
    (natTask 2 "b" (some [])).dependencies = some [] ∧
    graphIds (graphOf (TaskGraph.from_tasks
        [natTask 1 "a" none, natTask 2 "b" (some [])])) =
      [[(1, "a")], [(2, "b")]] :=
  ⟨rfl, by decide⟩

/-- C5 witness: from_tasks_depth_zero at a concrete one-task list, with the
Ok hypothesis of its first conjunct discharged by evaluation. -/
theorem from_tasks_depth_zero_witness :
    (TaskGraph.from_tasks [natTask 1 "a" none]).1 = .ok [[natTask 1 "a" none]] ∧
    TaskGraph.tasks_at [[natTask 1 "a" none]] 0 =
      [natTask 1 "a" none].filter (fun t => t.dependencies = none) :=
  ⟨rfl, (from_tasks_depth_zero [natTask 1 "a" none]).1 [[natTask 1 "a" none]] rfl⟩

/-- C7 (counterexample to the claim as stated): (2, "b"), (3, "c"), (4, "d")
all depend on the root (1, "a").  The first pass places (2, "b"); popping it
slides (3, "c") into the visited slot, so the pass skips (3, "c") and places
(4, "d"); a later pass places (3, "c").  Layer 1 therefore reads
(2, "b"), (4, "d"), (3, "c"), which is not a subsequence of the input
order (1, "a"), (2, "b"), (3, "c"), (4, "d"): a pass does skip elements and
same-layer tasks need not preserve input order. -/
theorem forPass_skips_after_pop :
    graphIds (graphOf (TaskGraph.from_tasks
        [natTask 1 "a" none, natTask 2 "b" (some [(1, "a")]),
         natTask 3 "c" (some [(1, "a")]), natTask 4 "d" (some [(1, "a")])])) =
      [[(1, "a")], [(2, "b"), (4, "d"), (3, "c")]] ∧
    ¬ List.Sublist ([(2, "b"), (4, "d"), (3, "c")] : List (Nat × String))
        [(1, "a"), (2, "b"), (3, "c"), (4, "d")] :=
  ⟨by decide, by decide⟩

/-- C7 witness: forPass_layer_extension at a concrete single pass — one
dependent task over a one-layer graph, extension read at layer 1. -/
theorem forPass_layer_extension_witness :
    (([[natTask 1 "a" none]] : Layers Nat) ≠ [] ∧
     ∃ ex, TaskGraph.tasks_at
         (forPass [natTask 2 "b" (some [(1, "a")])] [[natTask 1 "a" none]]).2.1 1 =
           TaskGraph.tasks_at ([[natTask 1 "a" none]] : Layers Nat) 1 ++ ex ∧
         ex.Sublist [natTask 2 "b" (some [(1, "a")])]) :=
  ⟨List.cons_ne_nil _ _,
   forPass_layer_extension [natTask 2 "b" (some [(1, "a")])] [[natTask 1 "a" none]]
     (List.cons_ne_nil _ _) 1⟩

/-- C9 witness: from_tasks_consumes_input at a concrete one-task list whose
build succeeds: the final state of the consumed list is empty. -/
theorem from_tasks_consumes_input_witness :
    (TaskGraph.from_tasks [natTask 5 "e" none]).1 = .ok [[natTask 5 "e" none]] ∧
    (TaskGraph.from_tasks [natTask 5 "e" none]).2 = [] :=
  ⟨rfl, from_tasks_consumes_input [natTask 5 "e" none] [[natTask 5 "e" none]] rfl⟩

end Teakit
